import Mathlib

set_option maxHeartbeats 1000000

namespace FolderTree

/-- Raw input data consumed by the hierarchy builder: each record carries a
`name` and optionally a `children` array (`none` models a missing property,
`some []` an explicitly empty array, as in `{name: ..., children: []}`). -/
inductive Data : Type where
  | mk (name : String) (children : Option (List Data)) : Data

def Data.name : Data → String
  | .mk s _ => s

def Data.childrenField : Data → Option (List Data)
  | .mk _ c => c

/-- The scalar fields stored on a d3 hierarchy node by the code:
`id` (assigned lazily by the data-join key function), the display `name`,
`depth` (set at hierarchy construction), the raw `data` payload, and the
mutable layout fields `row`, `x`, `y` and the stashed previous position
`x0`, `y0` (all `none` until first assigned, as the JS properties are
absent until first written). -/
structure Fields : Type where
  id : Option Nat
  name : String
  depth : Nat
  data : Data
  row : Option Nat
  x : Option Nat
  y : Option Nat
  x0 : Option Nat
  y0 : Option Nat

mutual
/-- The state of a JS object property holding a child list: the property can
be absent from the object (`Object.hasOwn` false), set to `null`, set to
`undefined` (both falsy but present), or an actual array of nodes. -/
inductive Slot : Type where
  | absent : Slot
  | nullv : Slot
  | undef : Slot
  | arr (cs : List Node) : Slot

/-- A d3 hierarchy node as mutated by the code: its fields plus the two
child-list properties `children` (expanded slot) and `_children`
(collapsed slot, called `hidden` here). -/
inductive Node : Type where
  | mk (f : Fields) (children : Slot) (hidden : Slot) : Node
end

def Node.fields : Node → Fields
  | .mk f _ _ => f

def Node.children : Node → Slot
  | .mk _ c _ => c

def Node.hidden : Node → Slot
  | .mk _ _ h => h

/-- `Object.hasOwn(d, prop)`: true for any present property, even `null`
or `undefined` valued. -/
def Slot.isPresent : Slot → Bool
  | .absent => false
  | _ => true

/-- JS truthiness of the slot value, as tested by `if (children)` in the
d3 traversals: only an actual array is truthy. -/
def Slot.isTruthy : Slot → Bool
  | .arr _ => true
  | _ => false

/-- Reading the property as a value to assign elsewhere: an absent property
reads as `undefined`. -/
def Slot.asAssigned : Slot → Slot
  | .absent => .undef
  | s => s

mutual
/-- `d3.hierarchy(data)`: `node.children` is created iff `data.children`
is a non-empty array (`if ((childs = children(node.data)) && (n = childs.length))`);
`depth` is the distance from the root. -/
def hierarchy (d : Data) (depth : Nat) : Node :=
  match d with
  | .mk nm kids =>
    let slot : Slot :=
      match kids with
      | some (k :: ks) => .arr (hierarchyKids (k :: ks) (depth + 1))
      | _ => .absent
    .mk ⟨none, nm, depth, .mk nm kids, none, none, none, none, none⟩ slot .absent

def hierarchyKids (ds : List Data) (depth : Nat) : List Node :=
  match ds with
  | [] => []
  | d :: rest => hierarchy d depth :: hierarchyKids rest depth
end

-- Layout constants of the code.
def row_height : Nat := 27
def indentation : Nat := 22
def icon_width : Nat := 14

mutual
/-- The layout traversal `root.eachBefore(...)` of `update`: pre-order,
descending only into a truthy `children` slot; each visited node gets
`x = depth * indentation`, `y = row * row_height`, `row` from a running
counter (`let row = -1; ... ++row`): the counter argument `r` here is the
value `++row` produces at this node, i.e. the number of nodes already
visited.  Returns the rewritten node and the next counter value. -/
def layoutNode (n : Node) (r : Nat) : Node × Nat :=
  match n with
  | .mk f c h =>
    let f' : Fields :=
      { f with x := some (f.depth * indentation), y := some (r * row_height), row := some r }
    match c with
    | .arr cs =>
      let p := layoutKids cs (r + 1)
      (.mk f' (.arr p.1) h, p.2)
    | _ => (.mk f' c h, r + 1)

def layoutKids (ns : List Node) (r : Nat) : List Node × Nat :=
  match ns with
  | [] => ([], r)
  | n :: rest =>
    let p := layoutNode n r
    let q := layoutKids rest p.2
    (p.1 :: q.1, q.2)
end

/-- The whole layout pass of `update` (lines 119–124): counter starts at -1,
so the root receives row 0. -/
def layout (root : Node) : Node :=
  (layoutNode root 0).1

mutual
/-- Number of nodes visited by the layout traversal (the visible set). -/
def visCount : Node → Nat
  | .mk _ c _ =>
    match c with
    | .arr cs => 1 + visCountKids cs
    | _ => 1

def visCountKids : List Node → Nat
  | [] => 0
  | n :: rest => visCount n + visCountKids rest
end

mutual
/-- The fields of the visible nodes in `root.eachBefore`'s pre-order.  The
SET of nodes listed is the same one `root.descendants()` returns (that one
in breadth-first order); the reconcile-step theorems below are stated
order-insensitively. -/
def visFields : Node → List Fields
  | .mk f c _h =>
    f :: (match c with
          | .arr cs => visFieldsKids cs
          | _ => [])

def visFieldsKids : List Node → List Fields
  | [] => []
  | n :: rest => visFields n ++ visFieldsKids rest
end

/-- The child list a path-step descends into: the `children` array if the
node is expanded, otherwise the `_children` array if collapsed, otherwise
nothing.  This addresses every node of the tree, hidden ones included. -/
def Node.anyKids : Node → List Node
  | .mk _ c h =>
    match c with
    | .arr cs => cs
    | _ =>
      match h with
      | .arr cs => cs
      | _ => []

/-- The expanded child list only (what the visible traversals descend into). -/
def Node.expKids : Node → List Node
  | .mk _ c _ =>
    match c with
    | .arr cs => cs
    | _ => []

/-- Address a node by the list of child indices leading to it (through
whichever slot holds its parent's child list). -/
def getNode : Node → List Nat → Option Node
  | n, [] => some n
  | n, i :: p =>
    match n.anyKids.get? i with
    | some c => getNode c p
    | none => none

/-- A path is visible iff every step descends through an expanded
(`children`) array: i.e. all proper ancestors of the addressed node are
expanded. -/
def isVisible : Node → List Nat → Bool
  | _, [] => true
  | n, i :: p =>
    match n.expKids.get? i with
    | some c => isVisible c p
    | none => false

/-- The state effect of `click` on the clicked node itself (lines 267–274):
if `children` is present, move its value to `_children` and delete
`children`; otherwise assign `_children`'s value (reading an absent
property as `undefined`) to `children` and delete `_children`. -/
def clickToggle : Node → Node
  | .mk f c h =>
    if c.isPresent then .mk f .absent c
    else .mk f h.asAssigned .absent

mutual
/-- Apply `clickToggle` to the node addressed by the given path, leaving
everything else in place. -/
def toggleAt : Node → List Nat → Node
  | n, [] => clickToggle n
  | .mk f c h, i :: p =>
    match c with
    | .arr cs => .mk f (.arr (toggleKids cs i p)) h
    | _ =>
      match h with
      | .arr cs => .mk f c (.arr (toggleKids cs i p))
      | _ => .mk f c h

def toggleKids : List Node → Nat → List Nat → List Node
  | [], _, _ => []
  | k :: ks, 0, p => toggleAt k p :: ks
  | k :: ks, i + 1, p => k :: toggleKids ks i p
end

/-- A sequence of toggles applied in order. -/
def applyToggles (t : Node) (ps : List (List Nat)) : Node :=
  ps.foldl toggleAt t

/-- `folder_icon` (lines 101–103): open folder if `children` is a present
property, closed folder if `_children` is, file glyph otherwise. -/
def folder_icon (n : Node) : String :=
  if n.children.isPresent then "\ue118"
  else if n.hidden.isPresent then "\ue117"
  else "\ue022"

/-- The body of the entering-glyphicon `.filter(...)` (lines 145–159): the
one-time normalization of a node whose data declares an empty children
array — if neither `children` nor `_children` is a present property, set
`children = null`. -/
def normalizeEntering (n : Node) : Node :=
  match n with
  | .mk f c h =>
    if f.data.childrenField.isSome && (f.data.childrenField.getD []).length == 0 then
      if !c.isPresent && !h.isPresent then .mk f .nullv h
      else .mk f c h
    else .mk f c h

/-- The return value of the same filter: whether the click handler is
attached to the (already normalized) entering node's glyphicon. -/
def attachesClick (n : Node) : Bool :=
  n.children.isPresent || n.hidden.isPresent

/-- The next level of d3's breadth-first `node.each` traversal: the
concatenation of the current level's truthy child arrays, in order. -/
def gatherKids : List Node → List Node
  | [] => []
  | n :: rest => n.expKids ++ gatherKids rest

/-- One level of the id-assigning data-join key function
`d => d.id || (d.id = ++id)` (line 128): each node of the level that has no
id yet gets the incremented counter, in order; the child slots are
untouched. -/
def assignTop : List Node → Nat → List Node × Nat
  | [], next => ([], next)
  | .mk f c h :: rest, next =>
    let fn : Fields × Nat :=
      match f.id with
      | some _ => (f, next)
      | none => ({ f with id := some (next + 1) }, next + 1)
    let q := assignTop rest fn.2
    (.mk fn.1 c h :: q.1, q.2)

/-- Reattach a processed deeper level below its parents: each parent with a
truthy child array takes back its own chunk of the pool. -/
def reattach : List Node → List Node → List Node
  | [], _ => []
  | .mk f c h :: rest, pool =>
    match c with
    | .arr cs =>
      .mk f (.arr (pool.take cs.length)) h :: reattach rest (pool.drop cs.length)
    | _ => .mk f c h :: reattach rest pool

/-- Breadth-first id assignment over a forest, level by level:
`root.descendants()` (over which the data join runs the key function) is
produced by `node.each`, which visits the visible nodes breadth-first.  The
fuel only bounds the number of levels; each non-empty level holds at least
one visible node, so any fuel above the visible-node count is never
exhausted (and for exhausted fuel the remaining levels are left unchanged,
which also preserves the identities proved below). -/
def bfsLevels (fuel : Nat) (ns : List Node) (next : Nat) : List Node × Nat :=
  match fuel with
  | 0 => (ns, next)
  | fuel + 1 =>
    match ns with
    | [] => ([], next)
    | n :: rest =>
      let tops := assignTop (n :: rest) next
      let deeper := bfsLevels fuel (gatherKids tops.1) tops.2
      (reattach tops.1 deeper.1, deeper.2)

/-- The id-assigning effect of the data join (line 128) on the whole tree:
the key function runs over `root.descendants()` in breadth-first order. -/
def assignIds (t : Node) (next : Nat) : Node × Nat :=
  let p := bfsLevels (visCount t + 1) [t] next
  (p.1.headD t, p.2)

mutual
/-- The entering-node normalization applied tree-wide: `update` runs the
filter body on exactly the entering nodes, i.e. the visible nodes whose id
is not among the currently rendered elements' ids. -/
def normalizeTreeNode (n : Node) (rendered : List Nat) : Node :=
  match n with
  | .mk f c h =>
    let c2 : Slot :=
      match c with
      | .arr cs => .arr (normalizeTreeKids cs rendered)
      | _ => c
    let entering : Bool :=
      match f.id with
      | some i => !(rendered.contains i)
      | none => true
    if entering then normalizeEntering (.mk f c2 h) else .mk f c2 h

def normalizeTreeKids (ns : List Node) (rendered : List Nat) : List Node :=
  match ns with
  | [] => []
  | n :: rest => normalizeTreeNode n rendered :: normalizeTreeKids rest rendered
end

mutual
/-- The stashing pass at the end of `update` (lines 260–263):
`root.each(d => { d.x0 = d.x; d.y0 = d.y })`, which traverses exactly the
`children`-reachable (visible) nodes. -/
def stashNode (n : Node) : Node :=
  match n with
  | .mk f c h =>
    let f' : Fields := { f with x0 := f.x, y0 := f.y }
    match c with
    | .arr cs => .mk f' (.arr (stashKids cs)) h
    | _ => .mk f' c h

def stashKids (ns : List Node) : List Node :=
  match ns with
  | [] => []
  | n :: rest => stashNode n :: stashKids rest
end

/-- A rendered node element currently in the scene: the datum's id and the
position it was last drawn at (its current transform). -/
structure RElem : Type where
  id : Nat
  x : Option Nat
  y : Option Nat

/-- One animated transition of a node element: where it starts, where it is
driven to, the opacity endpoints, and whether it is removed from the scene
at the end. -/
structure Anim : Type where
  elemId : Nat
  startX : Option Nat
  startY : Option Nat
  startOpacity : Nat
  endX : Option Nat
  endY : Option Nat
  endOpacity : Nat
  removed : Bool

/-- The three selections produced by the node data join. -/
structure NodeOps : Type where
  entering : List Anim
  updating : List Anim
  exiting : List Anim

/-- The node reconcile step of `update` (lines 127–213): the join is keyed
by `d.id`; entering elements (no previously rendered element with that id)
are created at the pivot's stashed previous position `(source.x0, source.y0)`
with opacity 0 and driven to their own `(d.x, d.y)` with opacity 1;
updating elements are driven from where they are to their own new position;
exiting elements (rendered but no longer among the data) are driven to the
pivot's current `(source.x, source.y)` with opacity 0 and then removed. -/
def nodeRenderOps (prev : List RElem) (vis : List Fields) (src : Fields) : NodeOps :=
  let prevIds := prev.map RElem.id
  let visIds := vis.filterMap Fields.id
  let entering := vis.filter (fun f =>
    match f.id with
    | some i => !(prevIds.contains i)
    | none => true)
  let enterOps := entering.map (fun f =>
    { elemId := f.id.getD 0, startX := src.x0, startY := src.y0, startOpacity := 0,
      endX := f.x, endY := f.y, endOpacity := 1, removed := false })
  let updOps := (vis.filter (fun f =>
    match f.id with
    | some i => prevIds.contains i
    | none => false)).map (fun f =>
    { elemId := f.id.getD 0,
      startX := ((prev.filter (fun e => f.id = some e.id)).head?).bind RElem.x,
      startY := ((prev.filter (fun e => f.id = some e.id)).head?).bind RElem.y,
      startOpacity := 1,
      endX := f.x, endY := f.y, endOpacity := 1, removed := false })
  let exitOps := (prev.filter (fun e => !(visIds.contains e.id))).map (fun e =>
    { elemId := e.id, startX := e.x, startY := e.y, startOpacity := 1,
      endX := src.x, endY := src.y, endOpacity := 0, removed := true })
  ⟨enterOps, updOps, exitOps⟩

/-- The fields of one element of `root.links()` that the code reads:
`d.source.depth`, `d.source.row`, `d.target.row`, plus the ids that
identify which parent-child pair the link joins. -/
structure LinkDatum : Type where
  sourceId : Option Nat
  targetId : Option Nat
  sourceDepth : Nat
  sourceRow : Option Nat
  targetRow : Option Nat

/-- The parent-to-child pairs forming the next breadth-first level below
the given one. -/
def nextLinkLevel : List (Fields × Node) → List (Fields × Node)
  | [] => []
  | q :: rest => q.2.expKids.map (fun c => (q.2.fields, c)) ++ nextLinkLevel rest

/-- The link records of one breadth-first level followed by the deeper
levels: `root.links()` pushes `{source: node.parent, target: node}` for
each non-root node in `node.each`'s breadth-first order.  As in
`bfsLevels`, the fuel only bounds the number of levels and is never
exhausted for fuel at least the visible-node count. -/
def linksLevels (fuel : Nat) (level : List (Fields × Node)) : List LinkDatum :=
  match fuel with
  | 0 => []
  | fuel + 1 =>
    match level with
    | [] => []
    | q :: rest =>
      (q :: rest).map (fun pr =>
        (⟨pr.1.id, pr.2.fields.id, pr.1.depth, pr.1.row, pr.2.fields.row⟩ : LinkDatum)) ++
        linksLevels fuel (nextLinkLevel (q :: rest))

/-- `root.links()` (bound to the link elements at line 217): one record per
non-root node of the breadth-first `each` traversal, in that order. -/
def links (t : Node) : List LinkDatum :=
  linksLevels (visCount t) (t.expKids.map (fun c => (t.fields, c)))

/-- d3's default (keyless) data join, as used for the links
(`svg.selectAll(".link").data(root.links())`, line 216–217): old elements
are re-bound to new data BY LIST POSITION; the first `min` elements are
updated (old datum paired with the new datum it is re-bound to), surplus
new data enter, surplus old elements exit. -/
def joinByIndex (old new : List LinkDatum) :
    List (LinkDatum × LinkDatum) × List LinkDatum × List LinkDatum :=
  (old.zip new, new.drop old.length, old.drop new.length)

/-- The three link selections of one `update` pass. -/
structure LinkOps : Type where
  updating : List (LinkDatum × LinkDatum)
  entering : List LinkDatum
  exiting : List LinkDatum

/-- The whole mutable state the closure `FolderTree` keeps between passes:
the tree (`root`), the id counter (`let id = 0`), and what is currently
drawn (node elements with their positions, and the link data bound to the
link elements). -/
structure St : Type where
  tree : Node
  nextId : Nat
  rendered : List RElem
  renderedLinks : List LinkDatum

/-- One `update(source)` pass (lines 105–264), with the pivot given as the
path of the source node: layout pass, id-assigning data join, the
enter/update/exit node ops, the entering-node normalization, the
(keyless) link join, and finally the position stash.  `update` is only
ever called on an existing node; an invalid pivot path is completed
arbitrarily by the root's fields. -/
def update (s : St) (pivot : List Nat) : St × NodeOps × LinkOps :=
  let t1 := layout s.tree
  let p1 := assignIds t1 s.nextId
  let t2 := p1.1
  let srcF : Fields :=
    match getNode t2 pivot with
    | some n => n.fields
    | none => t2.fields
  let vis := visFields t2
  let nodeOps := nodeRenderOps s.rendered vis srcF
  let t3 := normalizeTreeNode t2 (s.rendered.map RElem.id)
  let newLinks := links t3
  let lj := joinByIndex s.renderedLinks newLinks
  let linkOps : LinkOps := ⟨lj.1, lj.2.1, lj.2.2⟩
  let t4 := stashNode t3
  let rendered' := vis.filterMap (fun f => f.id.map (fun i => RElem.mk i f.x f.y))
  (⟨t4, p1.2, rendered', newLinks⟩, nodeOps, linkOps)

/-- The full effect of the `click` handler (lines 267–279): toggle the
clicked node's child slots, then run `update` with that node as pivot. -/
def click (s : St) (p : List Nat) : St × NodeOps × LinkOps :=
  update ⟨toggleAt s.tree p, s.nextId, s.rendered, s.renderedLinks⟩ p

/-- `load(json_file)` (lines 90–98): the fetched result either is an error —
`if (error) throw error`, propagated with nothing rendered — or yields the
data, from which the hierarchy is built, the root's previous position is
initialized to the origin (`root.x0 = 0; root.y0 = 0`), and a first
`update(root)` pass runs. -/
def load (result : Except String Data) : Except String (St × NodeOps × LinkOps) :=
  match result with
  | .error e => .error e
  | .ok d =>
    let r := hierarchy d 0
    let r2 : Node :=
      match r with
      | .mk f c h => .mk { f with x0 := some 0, y0 := some 0 } c h
    .ok (update ⟨r2, 0, [], []⟩ [])

/-- A JS value passed as the `tooltip_key` construction parameter. -/
inductive JSValue : Type where
  | nullv : JSValue
  | undefinedv : JSValue
  | str (s : String) : JSValue
  | num (n : Int) : JSValue
  | boolv (b : Bool) : JSValue
deriving DecidableEq

/-- The constructor's sanity check (lines 56–61): `tooltip_key_str` starts
as `null` and is assigned only when `tooltip_key` is non-null and of
string type. -/
def tooltip_key_str (tooltip_key : JSValue) : Option String :=
  if tooltip_key = JSValue.nullv then none
  else
    match tooltip_key with
    | .str s => some s
    | _ => none

/-- Whether the mouseover/mousemove/mouseout tooltip handlers are attached
to the entering label elements (line 177: `if (tooltip_key_str !== null)`). -/
def tooltipHandlersAttached (tooltip_key : JSValue) : Bool :=
  (tooltip_key_str tooltip_key).isSome

/-! ### Layout lemmas -/

/-- What the layout pass does to the visible fields, expressed on the flat
pre-order list: consecutive row stamps from a given counter value. -/
def rowStamp : List Fields → Nat → List Fields
  | [], _ => []
  | f :: fs, r =>
    { f with x := some (f.depth * indentation), y := some (r * row_height), row := some r }
      :: rowStamp fs (r + 1)

theorem rowStamp_append (a b : List Fields) (r : Nat) :
    rowStamp (a ++ b) r = rowStamp a r ++ rowStamp b (r + a.length) := by
  induction a generalizing r with
  | nil => simp [rowStamp]
  | cons f fs ih =>
    simp [rowStamp, ih, Nat.add_assoc, Nat.add_comm 1 fs.length]

mutual
theorem visFields_length (n : Node) : (visFields n).length = visCount n := by
  cases n with
  | mk f c h =>
    cases c with
    | arr cs =>
      simp [visFields, visCount, visFieldsKids_length cs]
      omega
    | absent => simp [visFields, visCount]
    | nullv => simp [visFields, visCount]
    | undef => simp [visFields, visCount]

theorem visFieldsKids_length (ns : List Node) :
    (visFieldsKids ns).length = visCountKids ns := by
  cases ns with
  | nil => simp [visFieldsKids, visCountKids]
  | cons n rest =>
    simp [visFieldsKids, visCountKids, visFields_length n, visFieldsKids_length rest]
end

mutual
theorem layoutNode_snd (n : Node) (r : Nat) :
    (layoutNode n r).2 = r + visCount n := by
  cases n with
  | mk f c h =>
    cases c with
    | arr cs =>
      simp [layoutNode, visCount, layoutKids_snd cs (r + 1)]
      omega
    | absent => simp [layoutNode, visCount]
    | nullv => simp [layoutNode, visCount]
    | undef => simp [layoutNode, visCount]

theorem layoutKids_snd (ns : List Node) (r : Nat) :
    (layoutKids ns r).2 = r + visCountKids ns := by
  cases ns with
  | nil => simp [layoutKids, visCountKids]
  | cons n rest =>
    simp [layoutKids, visCountKids, layoutNode_snd n r,
      layoutKids_snd rest (r + visCount n)]
    omega
end

mutual
theorem visFields_layoutNode (n : Node) (r : Nat) :
    visFields (layoutNode n r).1 = rowStamp (visFields n) r := by
  cases n with
  | mk f c h =>
    cases c with
    | arr cs =>
      simp [layoutNode, visFields, rowStamp, visFieldsKids_layoutKids cs (r + 1)]
    | absent => simp [layoutNode, visFields, rowStamp]
    | nullv => simp [layoutNode, visFields, rowStamp]
    | undef => simp [layoutNode, visFields, rowStamp]

theorem visFieldsKids_layoutKids (ns : List Node) (r : Nat) :
    visFieldsKids (layoutKids ns r).1 = rowStamp (visFieldsKids ns) r := by
  cases ns with
  | nil => simp [layoutKids, visFieldsKids, rowStamp]
  | cons n rest =>
    simp [layoutKids, visFieldsKids, visFields_layoutNode n r, rowStamp_append,
      visFields_length, layoutNode_snd]
    exact visFieldsKids_layoutKids rest (r + visCount n)
end

theorem visCount_pos (n : Node) : 1 ≤ visCount n := by
  cases n with
  | mk f c h => cases c <;> simp [visCount]

/-- The pre-order index of a visible node among the visible set: number of
visible nodes strictly before it in the layout traversal. -/
def preIdx : Node → List Nat → Nat
  | _, [] => 0
  | n, i :: p =>
    match n.expKids.get? i with
    | some k => 1 + visCountKids (n.expKids.take i) + preIdx k p
    | none => 0

/-- The `row` field of the node addressed by a path. -/
def rowAt (t : Node) (p : List Nat) : Option Nat :=
  (getNode t p).bind (fun n => n.fields.row)

theorem layoutKids_length (ns : List Node) (r : Nat) :
    (layoutKids ns r).1.length = ns.length := by
  induction ns generalizing r with
  | nil => simp [layoutKids]
  | cons n rest ih => simp [layoutKids, ih]

/-- The laid child list, pointwise: the i-th child is laid out starting at
the counter shifted by the visible sizes of its elder siblings. -/
theorem layoutKids_get? (ns : List Node) (r i : Nat) :
    (layoutKids ns r).1.get? i =
      (ns.get? i).map (fun k => (layoutNode k (r + visCountKids (ns.take i))).1) := by
  induction ns generalizing r i with
  | nil => simp [layoutKids]
  | cons n rest ih =>
    cases i with
    | zero => simp [layoutKids, visCountKids]
    | succ i =>
      have h1 := ih ((layoutNode n r).2) i
      simp only [layoutKids, List.get?_cons_succ, List.take_succ_cons, visCountKids,
        layoutNode_snd, ← Nat.add_assoc] at h1 ⊢
      exact h1

theorem layoutNode_fields (n : Node) (r : Nat) :
    (layoutNode n r).1.fields =
      { n.fields with
          x := some (n.fields.depth * indentation),
          y := some (r * row_height),
          row := some r } := by
  cases n with
  | mk f c h => cases c <;> simp [layoutNode, Node.fields]

theorem layoutNode_expKids (n : Node) (r : Nat) :
    (layoutNode n r).1.expKids = (layoutKids n.expKids (r + 1)).1 := by
  cases n with
  | mk f c h => cases c <;> simp [layoutNode, Node.expKids, layoutKids]

theorem layoutNode_anyKids_of_not_truthy (n : Node) (r : Nat)
    (h : n.children.isTruthy = false) :
    (layoutNode n r).1.anyKids = n.anyKids := by
  cases n with
  | mk f c hh =>
    cases c with
    | arr cs => simp [Node.children, Slot.isTruthy] at h
    | absent => simp [layoutNode, Node.anyKids]
    | nullv => simp [layoutNode, Node.anyKids]
    | undef => simp [layoutNode, Node.anyKids]

theorem layoutNode_anyKids_of_truthy (n : Node) (r : Nat)
    (h : n.children.isTruthy = true) :
    (layoutNode n r).1.anyKids = (layoutKids n.anyKids (r + 1)).1 := by
  cases n with
  | mk f c hh =>
    cases c with
    | arr cs => simp [layoutNode, Node.anyKids]
    | absent => simp [Node.children, Slot.isTruthy] at h
    | nullv => simp [Node.children, Slot.isTruthy] at h
    | undef => simp [Node.children, Slot.isTruthy] at h

theorem expKids_eq_anyKids_of_truthy (n : Node) (h : n.children.isTruthy = true) :
    n.expKids = n.anyKids := by
  cases n with
  | mk f c hh =>
    cases c with
    | arr cs => simp [Node.expKids, Node.anyKids]
    | absent => simp [Node.children, Slot.isTruthy] at h
    | nullv => simp [Node.children, Slot.isTruthy] at h
    | undef => simp [Node.children, Slot.isTruthy] at h

theorem expKids_nil_of_not_truthy (n : Node) (h : n.children.isTruthy = false) :
    n.expKids = [] := by
  cases n with
  | mk f c hh =>
    cases c with
    | arr cs => simp [Node.children, Slot.isTruthy] at h
    | absent => simp [Node.expKids]
    | nullv => simp [Node.expKids]
    | undef => simp [Node.expKids]

/-- Nodes not reached by the layout traversal are untouched: at any path
that is not visible, the addressed subtree (row and position included) is
exactly what it was before the pass. -/
theorem getNode_layoutNode_of_not_visible (p : List Nat) (n : Node) (r : Nat)
    (h : isVisible n p = false) :
    getNode (layoutNode n r).1 p = getNode n p := by
  induction p generalizing n r with
  | nil => simp [isVisible] at h
  | cons i p ih =>
    by_cases hc : n.children.isTruthy = true
    · rw [getNode, getNode, layoutNode_anyKids_of_truthy n r hc, layoutKids_get?]
      rw [← expKids_eq_anyKids_of_truthy n hc]
      have hv : isVisible n (i :: p) = false := h
      rw [isVisible] at hv
      cases hk : n.expKids.get? i with
      | none => simp
      | some k =>
        rw [hk] at hv
        simp only [Option.map_some]
        exact ih k _ hv
    · rw [getNode, getNode, layoutNode_anyKids_of_not_truthy n r (by simpa using hc)]

theorem preIdx_cons (n : Node) (i : Nat) (p : List Nat) (k : Node)
    (hk : n.expKids.get? i = some k) :
    preIdx n (i :: p) = 1 + visCountKids (n.expKids.take i) + preIdx k p := by
  conv_lhs => rw [preIdx]
  rw [hk]

theorem children_truthy_of_expKids_get? (n : Node) (i : Nat) (k : Node)
    (h : n.expKids.get? i = some k) : n.children.isTruthy = true := by
  cases n with
  | mk f c hh =>
    cases c with
    | arr cs => simp [Node.children, Slot.isTruthy]
    | absent => simp [Node.expKids] at h
    | nullv => simp [Node.expKids] at h
    | undef => simp [Node.expKids] at h

/-- Every visible node is visited by the layout pass and is assigned its
pre-order index as `row`, `depth * indentation` as `x`, and
`row * row_height` as `y`. -/
theorem getNode_layoutNode_of_visible (p : List Nat) (n : Node) (r : Nat)
    (h : isVisible n p = true) :
    ∃ m, getNode (layoutNode n r).1 p = some m ∧
      m.fields.row = some (r + preIdx n p) ∧
      m.fields.x = some (m.fields.depth * indentation) ∧
      m.fields.y = some ((r + preIdx n p) * row_height) := by
  induction p generalizing n r with
  | nil =>
    refine ⟨(layoutNode n r).1, rfl, ?_, ?_, ?_⟩ <;>
      simp [layoutNode_fields, preIdx]
  | cons i p ih =>
    rw [isVisible] at h
    cases hk : n.expKids.get? i with
    | none => rw [hk] at h; exact absurd h (by simp)
    | some k =>
      rw [hk] at h
      have hc : n.children.isTruthy = true := children_truthy_of_expKids_get? n i k hk
      obtain ⟨m, hm, hrow, hx, hy⟩ := ih k (r + 1 + visCountKids (n.expKids.take i)) h
      refine ⟨m, ?_, ?_, hx, ?_⟩
      · rw [getNode, layoutNode_anyKids_of_truthy n r hc,
          ← expKids_eq_anyKids_of_truthy n hc, layoutKids_get?, hk]
        simpa using hm
      · rw [hrow, preIdx_cons n i p k hk]
        congr 1
        omega
      · rw [hy, preIdx_cons n i p k hk]
        congr 2
        omega

/-- Visibility is inherited by ancestors: a prefix of a visible path is
visible. -/
theorem isVisible_of_append (p s : List Nat) (n : Node)
    (h : isVisible n (p ++ s) = true) : isVisible n p = true := by
  induction p generalizing n with
  | nil => simp [isVisible]
  | cons i p ih =>
    rw [List.cons_append, isVisible] at h
    rw [isVisible]
    cases hk : n.expKids.get? i with
    | none => rw [hk] at h; exact absurd h (by simp)
    | some k =>
      rw [hk] at h
      exact ih k h

/-- A proper visible descendant has a strictly larger pre-order index than
its ancestor. -/
theorem preIdx_lt_of_append (p s : List Nat) (n : Node) (hs : s ≠ [])
    (h : isVisible n (p ++ s) = true) : preIdx n p < preIdx n (p ++ s) := by
  induction p generalizing n with
  | nil =>
    cases s with
    | nil => exact absurd rfl hs
    | cons i s =>
      rw [List.nil_append, isVisible] at h
      cases hk : n.expKids.get? i with
      | none => rw [hk] at h; exact absurd h (by simp)
      | some k =>
        rw [List.nil_append, preIdx_cons n i s k hk]
        simp [preIdx]
  | cons i p ih =>
    rw [List.cons_append, isVisible] at h
    cases hk : n.expKids.get? i with
    | none => rw [hk] at h; exact absurd h (by simp)
    | some k =>
      rw [hk] at h
      rw [List.cons_append, preIdx_cons n i p k hk,
        preIdx_cons n i (p ++ s) k hk]
      have := ih k h
      omega

theorem visCountKids_take_lt (ns : List Node) (i j : Nat) (k : Node)
    (hij : i < j) (hk : ns.get? i = some k) :
    visCountKids (ns.take i) < visCountKids (ns.take j) := by
  induction ns generalizing i j with
  | nil => simp [List.get?] at hk
  | cons n0 rest ih =>
    cases i with
    | zero =>
      cases j with
      | zero => omega
      | succ j =>
        have h1 := visCount_pos n0
        simp only [List.take_zero, List.take_succ_cons, visCountKids]
        omega
    | succ i =>
      cases j with
      | zero => omega
      | succ j =>
        simp only [List.get?_cons_succ] at hk
        have := ih i j (by omega) hk
        simp [visCountKids]
        omega

/-- Among visible siblings, the pre-order index respects child order. -/
theorem preIdx_sibling (p : List Nat) (i j : Nat) (n : Node) (hij : i < j)
    (hi : isVisible n (p ++ [i]) = true) (hj : isVisible n (p ++ [j]) = true) :
    preIdx n (p ++ [i]) < preIdx n (p ++ [j]) := by
  induction p generalizing n with
  | nil =>
    rw [List.nil_append, isVisible] at hi hj
    cases hki : n.expKids.get? i with
    | none => rw [hki] at hi; exact absurd hi (by simp)
    | some ki =>
      cases hkj : n.expKids.get? j with
      | none => rw [hkj] at hj; exact absurd hj (by simp)
      | some kj =>
        simp only [List.nil_append]
        rw [preIdx_cons n i [] ki hki, preIdx_cons n j [] kj hkj]
        have := visCountKids_take_lt n.expKids i j ki hij hki
        simp only [preIdx]
        omega
  | cons a p ih =>
    rw [List.cons_append, isVisible] at hi hj
    cases hk : n.expKids.get? a with
    | none => rw [hk] at hi; exact absurd hi (by simp)
    | some k =>
      rw [hk] at hi hj
      simp only [List.cons_append]
      rw [preIdx_cons n a (p ++ [i]) k hk, preIdx_cons n a (p ++ [j]) k hk]
      have := ih k hi hj
      omega

theorem rowStamp_length (fs : List Fields) (r : Nat) :
    (rowStamp fs r).length = fs.length := by
  induction fs generalizing r with
  | nil => simp [rowStamp]
  | cons f fs ih => simp [rowStamp, ih]

theorem rowStamp_get? (fs : List Fields) (r k : Nat) :
    (rowStamp fs r).get? k =
      (fs.get? k).map (fun f =>
        { f with
            x := some (f.depth * indentation),
            y := some ((r + k) * row_height),
            row := some (r + k) }) := by
  induction fs generalizing r k with
  | nil => simp [rowStamp]
  | cons f fs ih =>
    cases k with
    | zero => simp [rowStamp]
    | succ k =>
      simp only [rowStamp, List.get?_cons_succ, ih (r + 1) k]
      have : r + 1 + k = r + (k + 1) := by omega
      rw [this]

theorem rowStamp_mem (fs : List Fields) (r : Nat) (f : Fields)
    (h : f ∈ rowStamp fs r) :
    ∃ q, f.row = some q ∧ f.x = some (f.depth * indentation) ∧
      f.y = some (q * row_height) := by
  induction fs generalizing r with
  | nil => simp [rowStamp] at h
  | cons g fs ih =>
    rw [rowStamp, List.mem_cons] at h
    cases h with
    | inl h => exact ⟨r, by simp [h]⟩
    | inr h => exact ih (r + 1) h

/-- The row assigned to a visible node by the layout pass is its pre-order
index among the visible nodes. -/
theorem rowAt_layout (t : Node) (p : List Nat) (h : isVisible t p = true) :
    rowAt (layout t) p = some (preIdx t p) := by
  obtain ⟨m, hm, hrow, -, -⟩ := getNode_layoutNode_of_visible p t 0 h
  rw [rowAt, layout, hm]
  simpa using hrow

theorem rowStamp_map_row (fs : List Fields) (r : Nat) :
    (rowStamp fs r).map Fields.row = (List.range' r fs.length).map some := by
  induction fs generalizing r with
  | nil => simp [rowStamp]
  | cons f fs ih => simp [rowStamp, List.range', ih]

/-! ### Example inputs used by witnesses and counterexamples -/

-- A small hierarchy: root with children a and b, where b has child c.
def dataC : Data := .mk "c" none
def dataB : Data := .mk "b" (some [dataC])
def dataA : Data := .mk "a" none
def dataRoot : Data := .mk "root" (some [dataA, dataB])
def exTree : Node := hierarchy dataRoot 0

-- The same set of names, but with the grandchild under the FIRST child:
-- root with children a and b, where a has child c.
def dataBLeaf : Data := .mk "b" none
def dataAC : Data := .mk "a" (some [dataC])
def dataRoot2 : Data := .mk "root" (some [dataAC, dataBLeaf])

-- A node whose input data declares an explicitly empty children list.
def dataEmpty : Data := .mk "e" (some [])

/-- C1: for every tree and every sequence of toggles, the layout pass at the
start of `update` assigns `row` and position to exactly the currently
visible nodes — a visible path (all ancestors expanded) is visited and
receives its pre-order row, `x = depth * indentation` and
`y = row * row_height`, while the subtree at any non-visible path (inside a
collapsed subtree) is not visited and is left completely unchanged, so it
receives no row/position in that pass. -/
theorem claim_C1_layout_visibility (t0 : Node) (ps : List (List Nat)) (p : List Nat) :
    (isVisible (applyToggles t0 ps) p = true →
      ∃ m, getNode (layout (applyToggles t0 ps)) p = some m ∧
        m.fields.row = some (preIdx (applyToggles t0 ps) p) ∧
        m.fields.x = some (m.fields.depth * indentation) ∧
        m.fields.y = some (preIdx (applyToggles t0 ps) p * row_height)) ∧
    (isVisible (applyToggles t0 ps) p = false →
      getNode (layout (applyToggles t0 ps)) p = getNode (applyToggles t0 ps) p) := by
  constructor
  · intro h
    have h2 := getNode_layoutNode_of_visible p (applyToggles t0 ps) 0 h
    simpa [layout] using h2
  · intro h
    rw [layout]
    exact getNode_layoutNode_of_not_visible p (applyToggles t0 ps) 0 h

/-- Witness for C1: after collapsing node b in the example tree, the path of
b is visible and is assigned its pre-order row and position, while the path
of its hidden child c is not visible and its subtree is untouched by the
layout pass. -/
theorem claim_C1_layout_visibility_witness :
    (∃ m, getNode (layout (applyToggles exTree [[1]])) [1] = some m ∧
      m.fields.row = some (preIdx (applyToggles exTree [[1]]) [1]) ∧
      m.fields.x = some (m.fields.depth * indentation) ∧
      m.fields.y = some (preIdx (applyToggles exTree [[1]]) [1] * row_height)) ∧
    getNode (layout (applyToggles exTree [[1]])) [1, 0] =
      getNode (applyToggles exTree [[1]]) [1, 0] :=
  ⟨(claim_C1_layout_visibility exTree [[1]] [1]).1 (by decide),
   (claim_C1_layout_visibility exTree [[1]] [1, 0]).2 (by decide)⟩

/-- C2: after a layout pass the rows of the N visible nodes, read in
traversal order, are exactly 0..N-1; every visited node has
`x = depth * indentation` and `y = row * row_height`; rows respect
pre-order: every visible ancestor has a smaller row than each of its
visible proper descendants, and visible siblings' rows follow child
order. -/
theorem claim_C2_rows_contiguous_preorder (t : Node) :
    ((visFields (layout t)).map Fields.row = (List.range (visCount t)).map some) ∧
    ((visFields (layout t)).all (fun f =>
        f.x == some (f.depth * indentation) &&
        f.y == f.row.map (fun q => q * row_height)) = true) ∧
    (∀ p s, s ≠ [] → isVisible t (p ++ s) = true →
      ∃ a b, rowAt (layout t) p = some a ∧ rowAt (layout t) (p ++ s) = some b ∧ a < b) ∧
    (∀ p i j, i < j → isVisible t (p ++ [i]) = true → isVisible t (p ++ [j]) = true →
      ∃ a b, rowAt (layout t) (p ++ [i]) = some a ∧
        rowAt (layout t) (p ++ [j]) = some b ∧ a < b) := by
  have hlay : visFields (layout t) = rowStamp (visFields t) 0 := by
    rw [layout]
    exact visFields_layoutNode t 0
  refine ⟨?_, ?_, ?_, ?_⟩
  · rw [hlay, rowStamp_map_row, visFields_length, List.range_eq_range']
  · rw [List.all_eq_true]
    intro f hf
    rw [hlay] at hf
    obtain ⟨q, h1, h2, h3⟩ := rowStamp_mem (visFields t) 0 f hf
    simp [h1, h2, h3]
  · intro p s hs hvis
    exact ⟨preIdx t p, preIdx t (p ++ s),
      rowAt_layout t p (isVisible_of_append p s t hvis), rowAt_layout t (p ++ s) hvis,
      preIdx_lt_of_append p s t hs hvis⟩
  · intro p i j hij hi hj
    exact ⟨preIdx t (p ++ [i]), preIdx t (p ++ [j]),
      rowAt_layout t (p ++ [i]) hi, rowAt_layout t (p ++ [j]) hj,
      preIdx_sibling p i j t hij hi hj⟩

/-- Witness for C2: in the fully expanded example tree the root's row is
below its grandchild c's row, and the rows of siblings a and b follow
child order. -/
theorem claim_C2_rows_contiguous_preorder_witness :
    (∃ a b, rowAt (layout exTree) [] = some a ∧
      rowAt (layout exTree) [1, 0] = some b ∧ a < b) ∧
    (∃ a b, rowAt (layout exTree) [0] = some a ∧
      rowAt (layout exTree) [1] = some b ∧ a < b) :=
  ⟨(claim_C2_rows_contiguous_preorder exTree).2.2.1 [] [1, 0] (by decide) (by decide),
   (claim_C2_rows_contiguous_preorder exTree).2.2.2 [] 0 1 (by decide) (by decide) (by decide)⟩

/-! ### Toggle lemmas -/

/-- The constructor used for a slot value, ignoring the child nodes inside:
this is a node's "expansion state" (which of `children`/`_children` is
present and in what form). -/
inductive SlotTag : Type where
  | absent : SlotTag
  | nullv : SlotTag
  | undef : SlotTag
  | arr : SlotTag
deriving DecidableEq

def Slot.tag : Slot → SlotTag
  | .absent => .absent
  | .nullv => .nullv
  | .undef => .undef
  | .arr _ => .arr

/-- The states of the two child slots that actually occur in the code:
excluded is only the unreachable combination of a present-but-non-array
`children` together with a `_children` array (toggling such a node would
drop the hidden array). -/
def Node.slotsOk (n : Node) : Bool :=
  !(n.children.isPresent && !n.children.isTruthy && n.hidden.isTruthy)

theorem clickToggle_fields (n : Node) : (clickToggle n).fields = n.fields := by
  cases n with
  | mk f c h =>
    rw [clickToggle]
    by_cases hc : c.isPresent = true <;> simp [hc, Node.fields]

theorem clickToggle_anyKids (n : Node) (hwf : n.slotsOk = true) :
    (clickToggle n).anyKids = n.anyKids := by
  cases n with
  | mk f c h =>
    cases c with
    | arr cs => simp [clickToggle, Slot.isPresent, Node.anyKids]
    | absent =>
      cases h <;>
        simp [clickToggle, Slot.isPresent, Slot.asAssigned, Node.anyKids]
    | nullv =>
      cases h with
      | arr hs =>
        simp [Node.slotsOk, Node.children, Node.hidden, Slot.isPresent,
          Slot.isTruthy] at hwf
      | absent => simp [clickToggle, Slot.isPresent, Node.anyKids]
      | nullv => simp [clickToggle, Slot.isPresent, Node.anyKids]
      | undef => simp [clickToggle, Slot.isPresent, Node.anyKids]
    | undef =>
      cases h with
      | arr hs =>
        simp [Node.slotsOk, Node.children, Node.hidden, Slot.isPresent,
          Slot.isTruthy] at hwf
      | absent => simp [clickToggle, Slot.isPresent, Node.anyKids]
      | nullv => simp [clickToggle, Slot.isPresent, Node.anyKids]
      | undef => simp [clickToggle, Slot.isPresent, Node.anyKids]

theorem toggleKids_length (cs : List Node) (i : Nat) (p : List Nat) :
    (toggleKids cs i p).length = cs.length := by
  induction cs generalizing i with
  | nil => simp [toggleKids]
  | cons k ks ih =>
    cases i with
    | zero => simp [toggleKids]
    | succ i => simp [toggleKids, ih]

theorem toggleKids_get? (cs : List Node) (i : Nat) (p : List Nat) (j : Nat) :
    (toggleKids cs i p).get? j =
      if j = i then (cs.get? j).map (fun k => toggleAt k p) else cs.get? j := by
  induction cs generalizing i j with
  | nil => simp [toggleKids]
  | cons k ks ih =>
    cases i with
    | zero =>
      cases j with
      | zero => simp [toggleKids]
      | succ j => simp [toggleKids]
    | succ i =>
      cases j with
      | zero => simp [toggleKids]
      | succ j =>
        simp only [toggleKids, List.get?_cons_succ, ih i j, Nat.add_right_cancel_iff]

/-- The observation the locality claim is about: a node's scalar fields,
its expansion state (both slot tags), and how many children it exposes. -/
def nodeView (n : Node) : Fields × SlotTag × SlotTag × Nat :=
  (n.fields, n.children.tag, n.hidden.tag, n.anyKids.length)

theorem clickToggle_eq_of_no_kids (f : Fields) (c h : Slot)
    (hc : c.isTruthy = false) (hh : h.isTruthy = false)
    (hwf : (Node.mk f c h).slotsOk = true) :
    ((clickToggle (Node.mk f c h)).anyKids = []) ∧
      (Node.mk f c h).anyKids = [] := by
  constructor
  · rw [clickToggle_anyKids _ hwf]
    cases c <;> cases h <;> simp_all [Node.anyKids, Slot.isTruthy]
  · cases c <;> cases h <;> simp_all [Node.anyKids, Slot.isTruthy]

/-- C5: toggling the node at path `p` changes only that node's own
`children`/`_children` pair: every other node keeps its scalar fields, the
presence state of both its slots, and its child count.  (The single
well-formedness hypothesis excludes the unreachable slot combination that
`click` itself can never produce.) -/
theorem claim_C5_toggle_locality (p : List Nat) (t : Node) (q : List Nat) (hq : q ≠ p)
    (hwf : ((getNode t p).all Node.slotsOk) = true) :
    (getNode (toggleAt t p) q).map nodeView = (getNode t q).map nodeView := by
  induction p generalizing t q with
  | nil =>
    cases q with
    | nil => exact absurd rfl hq
    | cons i q' =>
      have hwf' : t.slotsOk = true := by
        simpa [getNode, Option.all] using hwf
      have heq : getNode (toggleAt t []) (i :: q') = getNode t (i :: q') := by
        rw [toggleAt, getNode, getNode, clickToggle_anyKids t hwf']
      rw [heq]
  | cons i p' ih =>
    cases t with
    | mk f c h =>
      cases c with
      | arr cs =>
        cases q with
        | nil =>
          simp [getNode, toggleAt, nodeView, Node.fields, Node.children, Node.hidden,
            Slot.tag, Node.anyKids, toggleKids_length]
        | cons j q' =>
          have hL : getNode (toggleAt (Node.mk f (.arr cs) h) (i :: p')) (j :: q') =
              (match (toggleKids cs i p').get? j with
               | some k => getNode k q'
               | none => none) := rfl
          have hR : getNode (Node.mk f (.arr cs) h) (j :: q') =
              (match cs.get? j with
               | some k => getNode k q'
               | none => none) := rfl
          rw [hL, hR, toggleKids_get?]
          by_cases hji : j = i
          · subst hji
            simp only [if_pos rfl]
            cases hk : cs.get? j with
            | none => simp
            | some k =>
              simp only [Option.map_some]
              have hq' : q' ≠ p' := fun hqp => hq (by rw [hqp])
              have hwf2 : ((getNode k p').all Node.slotsOk) = true := by
                have e : getNode (Node.mk f (Slot.arr cs) h) (j :: p') =
                    (match cs.get? j with
                     | some x => getNode x p'
                     | none => none) := rfl
                rw [e, hk] at hwf
                exact hwf
              exact ih k q' hq' hwf2
          · simp only [if_neg hji]
      | absent =>
        cases h with
        | arr hs =>
          cases q with
          | nil =>
            simp [getNode, toggleAt, nodeView, Node.fields, Node.children, Node.hidden,
              Slot.tag, Node.anyKids, toggleKids_length]
          | cons j q' =>
            have hL : getNode (toggleAt (Node.mk f .absent (.arr hs)) (i :: p')) (j :: q') =
                (match (toggleKids hs i p').get? j with
                 | some k => getNode k q'
                 | none => none) := rfl
            have hR : getNode (Node.mk f .absent (.arr hs)) (j :: q') =
                (match hs.get? j with
                 | some k => getNode k q'
                 | none => none) := rfl
            rw [hL, hR, toggleKids_get?]
            by_cases hji : j = i
            · subst hji
              simp only [if_pos rfl]
              cases hk : hs.get? j with
              | none => simp
              | some k =>
                simp only [Option.map_some]
                have hq' : q' ≠ p' := fun hqp => hq (by rw [hqp])
                have hwf2 : ((getNode k p').all Node.slotsOk) = true := by
                  have e : getNode (Node.mk f Slot.absent (Slot.arr hs)) (j :: p') =
                      (match hs.get? j with
                       | some x => getNode x p'
                       | none => none) := rfl
                  rw [e, hk] at hwf
                  exact hwf
                exact ih k q' hq' hwf2
            · simp only [if_neg hji]
        | absent => rfl
        | nullv => rfl
        | undef => rfl
      | nullv =>
        cases h with
        | arr hs =>
          cases q with
          | nil =>
            simp [getNode, toggleAt, nodeView, Node.fields, Node.children, Node.hidden,
              Slot.tag, Node.anyKids, toggleKids_length]
          | cons j q' =>
            have hL : getNode (toggleAt (Node.mk f .nullv (.arr hs)) (i :: p')) (j :: q') =
                (match (toggleKids hs i p').get? j with
                 | some k => getNode k q'
                 | none => none) := rfl
            have hR : getNode (Node.mk f .nullv (.arr hs)) (j :: q') =
                (match hs.get? j with
                 | some k => getNode k q'
                 | none => none) := rfl
            rw [hL, hR, toggleKids_get?]
            by_cases hji : j = i
            · subst hji
              simp only [if_pos rfl]
              cases hk : hs.get? j with
              | none => simp
              | some k =>
                simp only [Option.map_some]
                have hq' : q' ≠ p' := fun hqp => hq (by rw [hqp])
                have hwf2 : ((getNode k p').all Node.slotsOk) = true := by
                  have e : getNode (Node.mk f Slot.nullv (Slot.arr hs)) (j :: p') =
                      (match hs.get? j with
                       | some x => getNode x p'
                       | none => none) := rfl
                  rw [e, hk] at hwf
                  exact hwf
                exact ih k q' hq' hwf2
            · simp only [if_neg hji]
        | absent => rfl
        | nullv => rfl
        | undef => rfl
      | undef =>
        cases h with
        | arr hs =>
          cases q with
          | nil =>
            simp [getNode, toggleAt, nodeView, Node.fields, Node.children, Node.hidden,
              Slot.tag, Node.anyKids, toggleKids_length]
          | cons j q' =>
            have hL : getNode (toggleAt (Node.mk f .undef (.arr hs)) (i :: p')) (j :: q') =
                (match (toggleKids hs i p').get? j with
                 | some k => getNode k q'
                 | none => none) := rfl
            have hR : getNode (Node.mk f .undef (.arr hs)) (j :: q') =
                (match hs.get? j with
                 | some k => getNode k q'
                 | none => none) := rfl
            rw [hL, hR, toggleKids_get?]
            by_cases hji : j = i
            · subst hji
              simp only [if_pos rfl]
              cases hk : hs.get? j with
              | none => simp
              | some k =>
                simp only [Option.map_some]
                have hq' : q' ≠ p' := fun hqp => hq (by rw [hqp])
                have hwf2 : ((getNode k p').all Node.slotsOk) = true := by
                  have e : getNode (Node.mk f Slot.undef (Slot.arr hs)) (j :: p') =
                      (match hs.get? j with
                       | some x => getNode x p'
                       | none => none) := rfl
                  rw [e, hk] at hwf
                  exact hwf
                exact ih k q' hq' hwf2
            · simp only [if_neg hji]
        | absent => rfl
        | nullv => rfl
        | undef => rfl

/-- Witness for C5: toggling node b of the example tree leaves the view of
its hidden child c (and of every other node) unchanged. -/
theorem claim_C5_toggle_locality_witness :
    (getNode (toggleAt exTree [1]) [1, 0]).map nodeView =
      (getNode exTree [1, 0]).map nodeView :=
  claim_C5_toggle_locality [1] exTree [1, 0] (by decide) (by decide)

/-! ### Round-trip machinery: presentation-field erasure and reachable-state
well-formedness -/

/-- Erase the mutable presentation fields (row, position, stashed previous
position), keeping identity, payload, depth and structure. -/
def stripF (f : Fields) : Fields :=
  { f with row := none, x := none, y := none, x0 := none, y0 := none }

mutual
def stripNode : Node → Node
  | .mk f c h => .mk (stripF f) (stripSlot c) (stripSlot h)

def stripSlot : Slot → Slot
  | .arr cs => .arr (stripKids cs)
  | s => s

def stripKids : List Node → List Node
  | [] => []
  | n :: rest => stripNode n :: stripKids rest
end

/-- Whether the raw data declares an explicitly empty children array. -/
def Data.emptyKids : Data → Bool
  | .mk _ (some []) => true
  | _ => false

mutual
/-- Well-formedness of reachable trees after the first completed `update`
pass: every node has an id, never are both child slots present at once,
and a node whose data declares `children: []` has already been normalized
(one of the two slots present). -/
def wfNode : Node → Bool
  | .mk f c h =>
    f.id.isSome && !(c.isPresent && h.isPresent) &&
      (!f.data.emptyKids || c.isPresent || h.isPresent) &&
      wfSlot c && wfSlot h

def wfSlot : Slot → Bool
  | .arr cs => wfKids cs
  | _ => true

def wfKids : List Node → Bool
  | [] => true
  | n :: rest => wfNode n && wfKids rest
end

mutual
theorem stripNode_layoutNode (n : Node) (r : Nat) :
    stripNode (layoutNode n r).1 = stripNode n := by
  cases n with
  | mk f c h =>
    cases c with
    | arr cs =>
      simp only [layoutNode, stripNode, stripSlot]
      rw [stripKids_layoutKids cs (r + 1)]
      simp [stripF]
    | absent => simp [layoutNode, stripNode, stripF]
    | nullv => simp [layoutNode, stripNode, stripF]
    | undef => simp [layoutNode, stripNode, stripF]

theorem stripKids_layoutKids (ns : List Node) (r : Nat) :
    stripKids (layoutKids ns r).1 = stripKids ns := by
  cases ns with
  | nil => simp [layoutKids, stripKids]
  | cons n rest =>
    simp only [layoutKids, stripKids]
    rw [stripNode_layoutNode n r, stripKids_layoutKids rest (layoutNode n r).2]
end

mutual
theorem stripNode_stashNode (n : Node) :
    stripNode (stashNode n) = stripNode n := by
  cases n with
  | mk f c h =>
    cases c with
    | arr cs =>
      simp only [stashNode, stripNode, stripSlot]
      rw [stripKids_stashKids cs]
      simp [stripF]
    | absent => simp [stashNode, stripNode, stripF]
    | nullv => simp [stashNode, stripNode, stripF]
    | undef => simp [stashNode, stripNode, stripF]

theorem stripKids_stashKids (ns : List Node) :
    stripKids (stashKids ns) = stripKids ns := by
  cases ns with
  | nil => simp [stashKids, stripKids]
  | cons n rest =>
    simp only [stashKids, stripKids]
    rw [stripNode_stashNode n, stripKids_stashKids rest]
end

theorem take_len_append {α : Type} (a b : List α) : (a ++ b).take a.length = a := by
  induction a with
  | nil => rfl
  | cons x xs ih => simp [ih]

theorem drop_len_append {α : Type} (a b : List α) : (a ++ b).drop a.length = b := by
  induction a with
  | nil => rfl
  | cons x xs ih => simp [ih]

/-- A level reattached to its own gathered children is unchanged. -/
theorem reattach_gatherKids (ns : List Node) : reattach ns (gatherKids ns) = ns := by
  induction ns with
  | nil => rfl
  | cons n rest ih =>
    cases n with
    | mk f c h =>
      cases c with
      | arr cs =>
        simp only [gatherKids, reattach, Node.expKids, take_len_append, drop_len_append]
        rw [ih]
      | absent =>
        simp only [gatherKids, reattach, Node.expKids, List.nil_append]
        rw [ih]
      | nullv =>
        simp only [gatherKids, reattach, Node.expKids, List.nil_append]
        rw [ih]
      | undef =>
        simp only [gatherKids, reattach, Node.expKids, List.nil_append]
        rw [ih]

theorem wfKids_append (a b : List Node) :
    wfKids (a ++ b) = (wfKids a && wfKids b) := by
  induction a with
  | nil => simp [wfKids]
  | cons n rest ih => simp [wfKids, ih, Bool.and_assoc]

theorem wfNode_id_isSome (n : Node) (hwf : wfNode n = true) :
    n.fields.id.isSome = true := by
  cases n with
  | mk f c h =>
    rw [wfNode] at hwf
    simp only [Bool.and_eq_true] at hwf
    exact hwf.1.1.1.1

theorem wfKids_gatherKids (ns : List Node) (hwf : wfKids ns = true) :
    wfKids (gatherKids ns) = true := by
  induction ns with
  | nil => rfl
  | cons n rest ih =>
    rw [wfKids, Bool.and_eq_true] at hwf
    rw [gatherKids, wfKids_append, Bool.and_eq_true]
    refine ⟨?_, ih hwf.2⟩
    cases n with
    | mk f c h =>
      cases c with
      | arr cs =>
        have h1 := hwf.1
        rw [wfNode] at h1
        simp only [Bool.and_eq_true] at h1
        have := h1.1.2
        rw [wfSlot] at this
        exact this
      | absent => rfl
      | nullv => rfl
      | undef => rfl

/-- On a level whose nodes all already carry ids, the key function assigns
nothing. -/
theorem assignTop_of_wf (ns : List Node) (k : Nat) (hwf : wfKids ns = true) :
    assignTop ns k = (ns, k) := by
  induction ns generalizing k with
  | nil => rfl
  | cons n rest ih =>
    rw [wfKids, Bool.and_eq_true] at hwf
    cases n with
    | mk f c h =>
      have hid : f.id.isSome = true := wfNode_id_isSome _ hwf.1
      cases hfid : f.id with
      | none => rw [hfid] at hid; cases hid
      | some v => simp only [assignTop, hfid, ih k hwf.2]

theorem bfsLevels_of_wf (fuel : Nat) (ns : List Node) (k : Nat)
    (hwf : wfKids ns = true) : bfsLevels fuel ns k = (ns, k) := by
  induction fuel generalizing ns k with
  | zero => rfl
  | succ fuel ih =>
    cases ns with
    | nil => rfl
    | cons n rest =>
      simp only [bfsLevels, assignTop_of_wf (n :: rest) k hwf,
        ih (gatherKids (n :: rest)) k (wfKids_gatherKids _ hwf),
        reattach_gatherKids]

theorem assignIds_of_wf (t : Node) (k : Nat) (hwf : wfNode t = true) :
    assignIds t k = (t, k) := by
  have h1 : wfKids [t] = true := by
    rw [wfKids, wfKids, hwf]
    rfl
  simp only [assignIds, bfsLevels_of_wf (visCount t + 1) [t] k h1, List.headD]

theorem normalizeEntering_of_wf (n : Node) (hwf : wfNode n = true) :
    normalizeEntering n = n := by
  cases n with
  | mk f c h =>
    rw [normalizeEntering]
    by_cases hemp : (f.data.childrenField.isSome &&
        (f.data.childrenField.getD []).length == 0) = true
    · rw [if_pos hemp]
      have hpres : (c.isPresent || h.isPresent) = true := by
        rw [wfNode] at hwf
        simp only [Bool.and_eq_true] at hwf
        have h3 := hwf.1.1.2
        have hek : f.data.emptyKids = true := by
          cases hd : f.data with
          | mk nm kids =>
            rw [hd] at hemp
            cases kids with
            | none => simp [Data.childrenField] at hemp
            | some l =>
              cases l with
              | nil => simp [Data.emptyKids]
              | cons a as => simp [Data.childrenField] at hemp
        rw [hek] at h3
        simpa using h3
      rw [Bool.or_eq_true] at hpres
      cases hpres with
      | inl hc => simp [hc]
      | inr hh => simp [hh]
    · rw [if_neg hemp]

mutual
theorem normalizeTreeNode_of_wf (n : Node) (rendered : List Nat)
    (hwf : wfNode n = true) : normalizeTreeNode n rendered = n := by
  cases n with
  | mk f c h =>
    have hwfc : wfSlot c = true := by
      rw [wfNode] at hwf
      simp only [Bool.and_eq_true] at hwf
      exact hwf.1.2
    cases c with
    | arr cs =>
      rw [wfSlot] at hwfc
      simp only [normalizeTreeNode, normalizeTreeKids_of_wf cs rendered hwfc]
      rw [normalizeEntering_of_wf _ hwf]
      simp
    | absent =>
      simp only [normalizeTreeNode]
      rw [normalizeEntering_of_wf _ hwf]
      simp
    | nullv =>
      simp only [normalizeTreeNode]
      rw [normalizeEntering_of_wf _ hwf]
      simp
    | undef =>
      simp only [normalizeTreeNode]
      rw [normalizeEntering_of_wf _ hwf]
      simp

theorem normalizeTreeKids_of_wf (ns : List Node) (rendered : List Nat)
    (hwf : wfKids ns = true) : normalizeTreeKids ns rendered = ns := by
  cases ns with
  | nil => rfl
  | cons n rest =>
    rw [wfKids, Bool.and_eq_true] at hwf
    rw [normalizeTreeKids, normalizeTreeNode_of_wf n rendered hwf.1,
      normalizeTreeKids_of_wf rest rendered hwf.2]
end

mutual
theorem wfNode_layoutNode (n : Node) (r : Nat) :
    wfNode (layoutNode n r).1 = wfNode n := by
  cases n with
  | mk f c h =>
    cases c with
    | arr cs =>
      simp only [layoutNode, wfNode, wfSlot]
      rw [wfKids_layoutKids cs (r + 1)]
      simp [Slot.isPresent]
    | absent => simp [layoutNode, wfNode]
    | nullv => simp [layoutNode, wfNode]
    | undef => simp [layoutNode, wfNode]

theorem wfKids_layoutKids (ns : List Node) (r : Nat) :
    wfKids (layoutKids ns r).1 = wfKids ns := by
  cases ns with
  | nil => simp [layoutKids]
  | cons n rest =>
    simp only [layoutKids, wfKids]
    rw [wfNode_layoutNode n r, wfKids_layoutKids rest (layoutNode n r).2]
end

mutual
theorem wfNode_stashNode (n : Node) : wfNode (stashNode n) = wfNode n := by
  cases n with
  | mk f c h =>
    cases c with
    | arr cs =>
      simp only [stashNode, wfNode, wfSlot]
      rw [wfKids_stashKids cs]
      simp [Slot.isPresent]
    | absent => simp [stashNode, wfNode]
    | nullv => simp [stashNode, wfNode]
    | undef => simp [stashNode, wfNode]

theorem wfKids_stashKids (ns : List Node) : wfKids (stashKids ns) = wfKids ns := by
  cases ns with
  | nil => simp [stashKids]
  | cons n rest =>
    simp only [stashKids, wfKids]
    rw [wfNode_stashNode n, wfKids_stashKids rest]
end

theorem wfNode_clickToggle (n : Node) (hwf : wfNode n = true) :
    wfNode (clickToggle n) = true := by
  cases n with
  | mk f c h =>
    rw [wfNode] at hwf
    simp only [Bool.and_eq_true] at hwf
    obtain ⟨⟨⟨⟨hid, _hex⟩, _hnorm⟩, hwfc⟩, hwfh⟩ := hwf
    cases c with
    | arr cs =>
      rw [wfSlot] at hwfc
      simp [clickToggle, Slot.isPresent, wfNode, Slot.asAssigned, hid, hwfc, wfSlot]
    | nullv =>
      simp [clickToggle, Slot.isPresent, wfNode, Slot.asAssigned, hid, wfSlot]
    | undef =>
      simp [clickToggle, Slot.isPresent, wfNode, Slot.asAssigned, hid, wfSlot]
    | absent =>
      cases h with
      | arr hs =>
        rw [wfSlot] at hwfh
        simp [clickToggle, Slot.isPresent, wfNode, Slot.asAssigned, hid, hwfh, wfSlot]
      | absent => simp [clickToggle, Slot.isPresent, wfNode, Slot.asAssigned, hid, wfSlot]
      | nullv => simp [clickToggle, Slot.isPresent, wfNode, Slot.asAssigned, hid, wfSlot]
      | undef => simp [clickToggle, Slot.isPresent, wfNode, Slot.asAssigned, hid, wfSlot]

mutual
theorem wfNode_toggleAt (t : Node) (p : List Nat) (hwf : wfNode t = true) :
    wfNode (toggleAt t p) = true := by
  cases p with
  | nil =>
    rw [toggleAt]
    exact wfNode_clickToggle t hwf
  | cons i p' =>
    cases t with
    | mk f c h =>
      rw [wfNode] at hwf
      simp only [Bool.and_eq_true] at hwf
      obtain ⟨⟨⟨⟨hid, hex⟩, hnorm⟩, hwfc⟩, hwfh⟩ := hwf
      cases c with
      | arr cs =>
        rw [wfSlot] at hwfc
        have := wfKids_toggleKids cs i p' hwfc
        simp only [toggleAt, wfNode, wfSlot]
        simp_all [Slot.isPresent]
      | absent =>
        cases h with
        | arr hs =>
          rw [wfSlot] at hwfh
          have := wfKids_toggleKids hs i p' hwfh
          simp only [toggleAt, wfNode, wfSlot]
          simp_all [Slot.isPresent]
        | absent => simp_all [toggleAt, wfNode, wfSlot]
        | nullv => simp_all [toggleAt, wfNode, wfSlot]
        | undef => simp_all [toggleAt, wfNode, wfSlot]
      | nullv =>
        cases h with
        | arr hs =>
          rw [wfSlot] at hwfh
          have := wfKids_toggleKids hs i p' hwfh
          simp only [toggleAt, wfNode, wfSlot]
          simp_all [Slot.isPresent]
        | absent => simp_all [toggleAt, wfNode, wfSlot]
        | nullv => simp_all [toggleAt, wfNode, wfSlot]
        | undef => simp_all [toggleAt, wfNode, wfSlot]
      | undef =>
        cases h with
        | arr hs =>
          rw [wfSlot] at hwfh
          have := wfKids_toggleKids hs i p' hwfh
          simp only [toggleAt, wfNode, wfSlot]
          simp_all [Slot.isPresent]
        | absent => simp_all [toggleAt, wfNode, wfSlot]
        | nullv => simp_all [toggleAt, wfNode, wfSlot]
        | undef => simp_all [toggleAt, wfNode, wfSlot]

theorem wfKids_toggleKids (ns : List Node) (i : Nat) (p : List Nat)
    (hwf : wfKids ns = true) : wfKids (toggleKids ns i p) = true := by
  cases ns with
  | nil => simpa [toggleKids] using hwf
  | cons k ks =>
    rw [wfKids, Bool.and_eq_true] at hwf
    cases i with
    | zero =>
      rw [toggleKids, wfKids, Bool.and_eq_true]
      exact ⟨wfNode_toggleAt k p hwf.1, hwf.2⟩
    | succ i =>
      rw [toggleKids, wfKids, Bool.and_eq_true]
      exact ⟨hwf.1, wfKids_toggleKids ks i p hwf.2⟩
end

theorem stripSlot_isPresent (s : Slot) : (stripSlot s).isPresent = s.isPresent := by
  cases s <;> simp [stripSlot, Slot.isPresent]

theorem stripSlot_asAssigned (s : Slot) :
    stripSlot s.asAssigned = (stripSlot s).asAssigned := by
  cases s <;> simp [stripSlot, Slot.asAssigned]

theorem stripNode_clickToggle (n : Node) :
    stripNode (clickToggle n) = clickToggle (stripNode n) := by
  cases n with
  | mk f c h =>
    by_cases hc : c.isPresent = true
    · rw [clickToggle]
      rw [if_pos hc]
      rw [stripNode, stripNode, clickToggle]
      rw [if_pos (by rw [stripSlot_isPresent]; exact hc)]
      rfl
    · rw [clickToggle]
      rw [if_neg hc]
      rw [stripNode, stripNode, clickToggle]
      rw [if_neg (by rw [stripSlot_isPresent]; exact hc)]
      rw [stripSlot_asAssigned]
      rfl

theorem stripKids_get? (ns : List Node) (i : Nat) :
    (stripKids ns).get? i = (ns.get? i).map stripNode := by
  induction ns generalizing i with
  | nil => simp [stripKids]
  | cons n rest ih =>
    cases i with
    | zero => simp [stripKids]
    | succ i => simp only [stripKids, List.get?_cons_succ, ih i]

mutual
theorem stripNode_toggleAt (t : Node) (p : List Nat) :
    stripNode (toggleAt t p) = toggleAt (stripNode t) p := by
  cases p with
  | nil =>
    rw [toggleAt, toggleAt]
    exact stripNode_clickToggle t
  | cons i p' =>
    cases t with
    | mk f c h =>
      cases c with
      | arr cs =>
        show stripNode (Node.mk f (.arr (toggleKids cs i p')) h) =
          toggleAt (Node.mk (stripF f) (.arr (stripKids cs)) (stripSlot h)) (i :: p')
        rw [stripNode]
        show Node.mk (stripF f) (.arr (stripKids (toggleKids cs i p'))) (stripSlot h) = _
        rw [stripKids_toggleKids cs i p']
        rfl
      | absent =>
        cases h with
        | arr hs =>
          show stripNode (Node.mk f .absent (.arr (toggleKids hs i p'))) =
            toggleAt (Node.mk (stripF f) .absent (.arr (stripKids hs))) (i :: p')
          rw [stripNode]
          show Node.mk (stripF f) (stripSlot .absent)
              (.arr (stripKids (toggleKids hs i p'))) = _
          rw [stripKids_toggleKids hs i p']
          rfl
        | absent => rfl
        | nullv => rfl
        | undef => rfl
      | nullv =>
        cases h with
        | arr hs =>
          show stripNode (Node.mk f .nullv (.arr (toggleKids hs i p'))) =
            toggleAt (Node.mk (stripF f) .nullv (.arr (stripKids hs))) (i :: p')
          rw [stripNode]
          show Node.mk (stripF f) (stripSlot .nullv)
              (.arr (stripKids (toggleKids hs i p'))) = _
          rw [stripKids_toggleKids hs i p']
          rfl
        | absent => rfl
        | nullv => rfl
        | undef => rfl
      | undef =>
        cases h with
        | arr hs =>
          show stripNode (Node.mk f .undef (.arr (toggleKids hs i p'))) =
            toggleAt (Node.mk (stripF f) .undef (.arr (stripKids hs))) (i :: p')
          rw [stripNode]
          show Node.mk (stripF f) (stripSlot .undef)
              (.arr (stripKids (toggleKids hs i p'))) = _
          rw [stripKids_toggleKids hs i p']
          rfl
        | absent => rfl
        | nullv => rfl
        | undef => rfl

theorem stripKids_toggleKids (ns : List Node) (i : Nat) (p : List Nat) :
    stripKids (toggleKids ns i p) = toggleKids (stripKids ns) i p := by
  cases ns with
  | nil => rfl
  | cons k ks =>
    cases i with
    | zero =>
      show stripNode (toggleAt k p) :: stripKids ks = _
      rw [stripNode_toggleAt k p]
      rfl
    | succ i =>
      show stripNode k :: stripKids (toggleKids ks i p) = _
      rw [stripKids_toggleKids ks i p]
      rfl
end

theorem toggleKids_toggleKids (ns : List Node) (i : Nat) (p : List Nat)
    (hrt : ∀ k, ns.get? i = some k → toggleAt (toggleAt k p) p = k) :
    toggleKids (toggleKids ns i p) i p = ns := by
  induction ns generalizing i with
  | nil => rfl
  | cons k ks ih =>
    cases i with
    | zero =>
      show toggleAt (toggleAt k p) p :: ks = k :: ks
      rw [hrt k rfl]
    | succ i =>
      show k :: toggleKids (toggleKids ks i p) i p = k :: ks
      rw [ih i (fun k' hk' => hrt k' (by simpa using hk'))]

/-- Toggling the same node twice is the identity, provided the node has its
child list in exactly one of the two slots (the invariant `click`
maintains). -/
theorem toggleAt_toggleAt (t : Node) (p : List Nat)
    (hx : (getNode t p).map
      (fun n => n.children.isPresent != n.hidden.isPresent) = some true) :
    toggleAt (toggleAt t p) p = t := by
  induction p generalizing t with
  | nil =>
    cases t with
    | mk f c h =>
      have hx' : (c.isPresent != h.isPresent) = true := by
        simpa [getNode, Node.children, Node.hidden] using hx
      rw [toggleAt, toggleAt]
      cases c <;> cases h <;>
        simp_all [clickToggle, Slot.isPresent, Slot.asAssigned]
  | cons i p' ih =>
    cases t with
    | mk f c h =>
      cases c with
      | arr cs =>
        have hx2 : (match cs.get? i with
            | some k => getNode k p'
            | none => none).map
              (fun (n : Node) => n.children.isPresent != n.hidden.isPresent) = some true := hx
        cases hk : cs.get? i with
        | none => rw [hk] at hx2; simp at hx2
        | some k =>
          rw [hk] at hx2
          show Node.mk f (.arr (toggleKids (toggleKids cs i p') i p')) h = _
          rw [toggleKids_toggleKids cs i p' (fun k' hk' => by
            rw [hk] at hk'
            cases hk'
            exact ih k hx2)]
      | absent =>
        cases h with
        | arr hs =>
          have hx2 : (match hs.get? i with
              | some k => getNode k p'
              | none => none).map
                (fun (n : Node) => n.children.isPresent != n.hidden.isPresent) = some true := hx
          cases hk : hs.get? i with
          | none => rw [hk] at hx2; simp at hx2
          | some k =>
            rw [hk] at hx2
            show Node.mk f .absent (.arr (toggleKids (toggleKids hs i p') i p')) = _
            rw [toggleKids_toggleKids hs i p' (fun k' hk' => by
              rw [hk] at hk'
              cases hk'
              exact ih k hx2)]
        | absent => rfl
        | nullv => rfl
        | undef => rfl
      | nullv =>
        cases h with
        | arr hs =>
          have hx2 : (match hs.get? i with
              | some k => getNode k p'
              | none => none).map
                (fun (n : Node) => n.children.isPresent != n.hidden.isPresent) = some true := hx
          cases hk : hs.get? i with
          | none => rw [hk] at hx2; simp at hx2
          | some k =>
            rw [hk] at hx2
            show Node.mk f .nullv (.arr (toggleKids (toggleKids hs i p') i p')) = _
            rw [toggleKids_toggleKids hs i p' (fun k' hk' => by
              rw [hk] at hk'
              cases hk'
              exact ih k hx2)]
        | absent => rfl
        | nullv => rfl
        | undef => rfl
      | undef =>
        cases h with
        | arr hs =>
          have hx2 : (match hs.get? i with
              | some k => getNode k p'
              | none => none).map
                (fun (n : Node) => n.children.isPresent != n.hidden.isPresent) = some true := hx
          cases hk : hs.get? i with
          | none => rw [hk] at hx2; simp at hx2
          | some k =>
            rw [hk] at hx2
            show Node.mk f .undef (.arr (toggleKids (toggleKids hs i p') i p')) = _
            rw [toggleKids_toggleKids hs i p' (fun k' hk' => by
              rw [hk] at hk'
              cases hk'
              exact ih k hx2)]
        | absent => rfl
        | nullv => rfl
        | undef => rfl

theorem anyKids_stripNode (n : Node) :
    (stripNode n).anyKids = stripKids n.anyKids := by
  cases n with
  | mk f c h => cases c <;> cases h <;> rfl

theorem getNode_stripNode (q : List Nat) (t : Node) :
    getNode (stripNode t) q = (getNode t q).map stripNode := by
  induction q generalizing t with
  | nil => rfl
  | cons i q' ih =>
    rw [getNode, getNode, anyKids_stripNode, stripKids_get?]
    cases hk : t.anyKids.get? i with
    | none => simp
    | some k =>
      simp only [Option.map_some]
      exact ih k

theorem wfKids_get? (ns : List Node) (i : Nat) (k : Node)
    (hwf : wfKids ns = true) (hk : ns.get? i = some k) : wfNode k = true := by
  induction ns generalizing i with
  | nil => simp [List.get?] at hk
  | cons n rest ih =>
    rw [wfKids, Bool.and_eq_true] at hwf
    cases i with
    | zero =>
      simp only [List.get?_cons_zero, Option.some.injEq] at hk
      rw [← hk]
      exact hwf.1
    | succ i =>
      simp only [List.get?_cons_succ] at hk
      exact ih i hwf.2 hk

theorem wfKids_anyKids (n : Node) (hwf : wfNode n = true) :
    wfKids n.anyKids = true := by
  cases n with
  | mk f c h =>
    rw [wfNode] at hwf
    simp only [Bool.and_eq_true] at hwf
    obtain ⟨⟨⟨⟨_, _⟩, _⟩, hwfc⟩, hwfh⟩ := hwf
    cases c with
    | arr cs => rw [wfSlot] at hwfc; exact hwfc
    | absent =>
      cases h with
      | arr hs => rw [wfSlot] at hwfh; exact hwfh
      | absent => rfl
      | nullv => rfl
      | undef => rfl
    | nullv =>
      cases h with
      | arr hs => rw [wfSlot] at hwfh; exact hwfh
      | absent => rfl
      | nullv => rfl
      | undef => rfl
    | undef =>
      cases h with
      | arr hs => rw [wfSlot] at hwfh; exact hwfh
      | absent => rfl
      | nullv => rfl
      | undef => rfl

theorem wfNode_getNode (q : List Nat) (t n : Node)
    (hwf : wfNode t = true) (h : getNode t q = some n) : wfNode n = true := by
  induction q generalizing t with
  | nil =>
    rw [getNode, Option.some.injEq] at h
    rw [← h]
    exact hwf
  | cons i q' ih =>
    rw [getNode] at h
    cases hk : t.anyKids.get? i with
    | none => rw [hk] at h; cases h
    | some k =>
      rw [hk] at h
      exact ih k (wfKids_get? t.anyKids i k (wfKids_anyKids t hwf) hk) h

theorem stripNode_children (n : Node) :
    (stripNode n).children = stripSlot n.children := by
  cases n with
  | mk f c h => rfl

theorem stripNode_hidden (n : Node) :
    (stripNode n).hidden = stripSlot n.hidden := by
  cases n with
  | mk f c h => rfl

/-- On a well-formed state, one `click` pass changes the tree by exactly:
toggle the clicked node, run the layout stamp, stash positions (the id
assignment and the entering-normalization are identities there). -/
theorem click_tree_of_wf (s : St) (p : List Nat) (hwf : wfNode s.tree = true) :
    (click s p).1.tree = stashNode (layout (toggleAt s.tree p)) := by
  have hwl : wfNode (layout (toggleAt s.tree p)) = true := by
    rw [layout, wfNode_layoutNode]
    exact wfNode_toggleAt s.tree p hwf
  calc (click s p).1.tree
      = stashNode (normalizeTreeNode
          (assignIds (layout (toggleAt s.tree p)) s.nextId).1
          (s.rendered.map RElem.id)) := rfl
    _ = stashNode (normalizeTreeNode (layout (toggleAt s.tree p))
          (s.rendered.map RElem.id)) := by
        rw [assignIds_of_wf _ _ hwl]
    _ = stashNode (layout (toggleAt s.tree p)) := by
        rw [normalizeTreeNode_of_wf _ _ hwl]

theorem wfNode_click (s : St) (p : List Nat) (hwf : wfNode s.tree = true) :
    wfNode (click s p).1.tree = true := by
  rw [click_tree_of_wf s p hwf, wfNode_stashNode, layout, wfNode_layoutNode]
  exact wfNode_toggleAt s.tree p hwf

/-- Two successive clicks on the same node leave the tree unchanged up to
the presentation fields. -/
theorem clickClick_strip (s : St) (p : List Nat) (hwf : wfNode s.tree = true)
    (hp : (getNode s.tree p).map
      (fun (n : Node) => n.children.isPresent || n.hidden.isPresent) = some true) :
    stripNode ((click (click s p).1 p).1.tree) = stripNode s.tree := by
  cases hk : getNode s.tree p with
  | none => rw [hk] at hp; cases hp
  | some n0 =>
    rw [hk] at hp
    have hp2 : (n0.children.isPresent || n0.hidden.isPresent) = true := by
      simpa using hp
    have hwn0 : wfNode n0 = true := wfNode_getNode p s.tree n0 hwf hk
    have hex : (!(n0.children.isPresent && n0.hidden.isPresent)) = true := by
      cases n0 with
      | mk f0 c0 h0 =>
        rw [wfNode] at hwn0
        simp only [Bool.and_eq_true] at hwn0
        exact hwn0.1.1.1.2
    have hxor : (n0.children.isPresent != n0.hidden.isPresent) = true := by
      revert hp2 hex
      cases n0.children.isPresent <;> cases n0.hidden.isPresent <;> decide
    have h1 : (click s p).1.tree = stashNode (layout (toggleAt s.tree p)) :=
      click_tree_of_wf s p hwf
    have h2 : (click (click s p).1 p).1.tree =
        stashNode (layout (toggleAt (click s p).1.tree p)) :=
      click_tree_of_wf (click s p).1 p (wfNode_click s p hwf)
    rw [h2, stripNode_stashNode, layout, stripNode_layoutNode, stripNode_toggleAt,
      h1, stripNode_stashNode, layout, stripNode_layoutNode, stripNode_toggleAt]
    apply toggleAt_toggleAt
    rw [getNode_stripNode, hk]
    show some ((stripNode n0).children.isPresent != (stripNode n0).hidden.isPresent) =
      some true
    rw [stripNode_children, stripNode_hidden, stripSlot_isPresent, stripSlot_isPresent,
      hxor]

/-- The state reached by loading the example data (all nodes rendered once,
ids assigned, positions stashed). -/
def exState : St :=
  match load (.ok dataRoot) with
  | .ok r => r.1
  | .error _ => ⟨exTree, 0, [], []⟩

/-- C4: on a reachable (well-formed) state, clicking a node that has
children (collapse) and clicking it again (expand), with nothing in
between, restores every descendant exactly — identity (`id`), payload
(`data`/`name`/`depth`) and subtree structure — up to the presentation
fields (row/position/stash) that the two passes recompute. -/
theorem claim_C4_collapse_expand_round_trip (s : St) (p : List Nat)
    (hwf : wfNode s.tree = true)
    (hp : (getNode s.tree p).map
      (fun (n : Node) => n.children.isPresent || n.hidden.isPresent) = some true)
    (q : List Nat) (_hq : q ≠ []) :
    (getNode ((click (click s p).1 p).1.tree) (p ++ q)).map stripNode =
      (getNode s.tree (p ++ q)).map stripNode := by
  have hmaster := clickClick_strip s p hwf hp
  have e1 := getNode_stripNode (p ++ q) ((click (click s p).1 p).1.tree)
  have e2 := getNode_stripNode (p ++ q) s.tree
  rw [← e1, ← e2, hmaster]

/-- Witness for C4: in the loaded example state, collapsing and re-expanding
node b restores its child c (identity, payload, structure). -/
theorem claim_C4_collapse_expand_round_trip_witness :
    (getNode ((click (click exState [1]).1 [1]).1.tree) [1, 0]).map stripNode =
      (getNode exState.tree [1, 0]).map stripNode :=
  claim_C4_collapse_expand_round_trip exState [1] (by decide) (by decide) [0] (by decide)

/-! ### The empty-children normalization (C3) -/

theorem childrenField_of_emptyKids (d : Data) (h : d.emptyKids = true) :
    d.childrenField = some [] := by
  cases d with
  | mk nm kids =>
    cases kids with
    | none => simp [Data.emptyKids] at h
    | some l =>
      cases l with
      | nil => rfl
      | cons a as => simp [Data.emptyKids] at h

/-- Counterexample to C3 as stated: the node built from data with an
explicitly empty children list, after the first-render normalization, shows
the OPEN-FOLDER icon (`""`), not the Leaf/file icon (`""`), and
the click handler IS attached (the filter returns true for it). -/
theorem claim_C3_counterexample :
    folder_icon (normalizeEntering (hierarchy dataEmpty 0)) = "" ∧
    attachesClick (normalizeEntering (hierarchy dataEmpty 0)) = true ∧
    "" ≠ "" :=
  ⟨rfl, rfl, by decide⟩

/-- C3 (amended): a node whose input data declares an empty children list
is, at its first render (no child slot present yet), normalized into a
childless DIRECTORY — its `children` property is set to null, it displays
the open-folder icon, and a click handler is attached.  The normalization
is applied only once: a re-entering node that already has an expanded or
collapsed child slot is returned unchanged, so a legitimately collapsed
state is never erased. -/
theorem claim_C3_empty_children_normalized_once (f : Fields) (n : Node)
    (hemp : f.data.emptyKids = true)
    (hpres : (n.children.isPresent || n.hidden.isPresent) = true) :
    (normalizeEntering (Node.mk f .absent .absent) = Node.mk f .nullv .absent ∧
      folder_icon (normalizeEntering (Node.mk f .absent .absent)) = "" ∧
      attachesClick (normalizeEntering (Node.mk f .absent .absent)) = true) ∧
    normalizeEntering n = n := by
  have hcf : f.data.childrenField = some [] := childrenField_of_emptyKids _ hemp
  have hnorm : normalizeEntering (Node.mk f .absent .absent) =
      Node.mk f .nullv .absent := by
    rw [normalizeEntering]
    simp [hcf, Slot.isPresent]
  refine ⟨⟨hnorm, ?_, ?_⟩, ?_⟩
  · rw [hnorm]
    rfl
  · rw [hnorm]
    rfl
  · cases n with
    | mk fn cn hn =>
      rw [normalizeEntering]
      by_cases hout : (fn.data.childrenField.isSome &&
          (fn.data.childrenField.getD []).length == 0) = true
      · rw [if_pos hout]
        rw [Bool.or_eq_true] at hpres
        cases hpres with
        | inl hc => simp [Node.children] at hc; simp [hc]
        | inr hh => simp [Node.hidden] at hh; simp [hh]
      · rw [if_neg hout]

/-- Witness for C3 (amended) at the concrete empty-children input. -/
theorem claim_C3_empty_children_normalized_once_witness :
    (normalizeEntering (hierarchy dataEmpty 0) =
        Node.mk ⟨none, "e", 0, dataEmpty, none, none, none, none, none⟩ .nullv .absent ∧
      folder_icon (normalizeEntering (hierarchy dataEmpty 0)) = "" ∧
      attachesClick (normalizeEntering (hierarchy dataEmpty 0)) = true) ∧
    normalizeEntering (normalizeEntering (hierarchy dataEmpty 0)) =
      normalizeEntering (hierarchy dataEmpty 0) :=
  claim_C3_empty_children_normalized_once
    ⟨none, "e", 0, dataEmpty, none, none, none, none, none⟩
    (normalizeEntering (hierarchy dataEmpty 0)) (by decide) (by decide)

/-! ### Tooltip enabling (C9, C10) -/

/-- The enabling condition as the claim words it: tooltip behavior enabled
exactly when the key parameter is non-null and non-empty.  (Spec-side
definition, for comparison with the code's behavior.) -/
def claimC9Enabled (tk : JSValue) : Bool :=
  !(tk == JSValue.nullv) && !(tk == JSValue.str "")

/-- Counterexample to C9 as stated: the empty string is non-null and of
string type, so the code DOES attach the hover handlers, while the claim's
"non-null and non-empty" condition says it must not. -/
theorem claim_C9_counterexample :
    tooltipHandlersAttached (JSValue.str "") ≠ claimC9Enabled (JSValue.str "") := by
  decide

/-- C9 (amended): the mouseover/mousemove/mouseout handlers are attached to
the entering label elements exactly when the `tooltip_key` construction
parameter is a non-null STRING value — the empty string included; for null
or any non-string value no hover listeners are attached at all. -/
theorem claim_C9_tooltip_enabled_iff_string (tk : JSValue) :
    tooltipHandlersAttached tk = true ↔ ∃ s, tk = JSValue.str s := by
  cases tk <;> simp [tooltipHandlersAttached, tooltip_key_str]

def JSValue.isString : JSValue → Bool
  | .str _ => true
  | _ => false

/-- C10: a non-null, non-string `tooltip_key` (a number, a boolean,
`undefined`, ...) is silently treated exactly like null: `tooltip_key_str`
stays null and no hover handlers are attached; no error is raised (the
sanity check at lines 56–61 simply skips the assignment). -/
theorem claim_C10_non_string_key_ignored (tk : JSValue)
    (hnull : tk ≠ JSValue.nullv) (hstr : tk.isString = false) :
    tooltip_key_str tk = none ∧ tooltipHandlersAttached tk = false := by
  cases tk <;> simp_all [tooltip_key_str, tooltipHandlersAttached, JSValue.isString]

/-- Witness for C10 at a concrete number-valued key. -/
theorem claim_C10_non_string_key_ignored_witness :
    tooltip_key_str (JSValue.num 5) = none ∧
      tooltipHandlersAttached (JSValue.num 5) = false :=
  claim_C10_non_string_key_ignored (JSValue.num 5) (by decide) (by decide)

/-! ### Link reconciliation (C7) -/

/-- The parent-child pair a connector joins, by node identity. -/
def linkPair (l : LinkDatum) : Option Nat × Option Nat :=
  (l.sourceId, l.targetId)

-- A two-branch hierarchy with a grandchild on each side: root{a{c}, b{d}}.
def dataD : Data := .mk "d" none
def dataBD : Data := .mk "b" (some [dataD])
def dataRoot3 : Data := .mk "root" (some [dataAC, dataBD])

/-- The state root{a{c}, b{d}} reaches after its first render, written
out (the counterexample theorem's first conjunct checks it against
`load`): ids are assigned in breadth-first `descendants()` order (root=1,
a=2, b=3, c=4, d=5), rows and positions in pre-order, and the rendered
breadth-first links list is [(root,a), (root,b), (a,c), (b,d)] =
[(1,2), (1,3), (2,4), (3,5)]. -/
def exState3 : St :=
  ⟨Node.mk
    ⟨some 1, "root", 0, dataRoot3, some 0, some 0, some 0, some 0, some 0⟩
    (Slot.arr
      [Node.mk
        ⟨some 2, "a", 1, dataAC, some 1, some 22, some 27, some 22, some 27⟩
        (Slot.arr
          [Node.mk ⟨some 4, "c", 2, dataC, some 2, some 44, some 54, some 44, some 54⟩
            Slot.absent Slot.absent])
        Slot.absent,
       Node.mk
        ⟨some 3, "b", 1, dataBD, some 3, some 22, some 81, some 22, some 81⟩
        (Slot.arr
          [Node.mk ⟨some 5, "d", 2, dataD, some 4, some 44, some 108, some 44, some 108⟩
            Slot.absent Slot.absent])
        Slot.absent])
    Slot.absent,
   5,
   [⟨1, some 0, some 0⟩, ⟨2, some 22, some 27⟩, ⟨4, some 44, some 54⟩,
    ⟨3, some 22, some 81⟩, ⟨5, some 44, some 108⟩],
   [⟨some 1, some 2, 0, some 0, some 1⟩, ⟨some 1, some 3, 0, some 0, some 3⟩,
    ⟨some 2, some 4, 1, some 1, some 2⟩, ⟨some 3, some 5, 1, some 3, some 4⟩]⟩

/-- Counterexample to C7 as stated.  First conjunct: `exState3` IS the
state the program reaches after `load` on root{a{c}, b{d}}.  Collapsing
node a then shrinks the breadth-first links list from
[(root,a), (root,b), (a,c), (b,d)] to [(root,a), (root,b), (b,d)].  Under
the code's keyless (positional) join, the element previously bound to the
pair (a,c) (ids 2→4) is re-bound to the pair (b,d) (ids 3→5), and the
element that exits is the one bound to (b,d) — a pair still present in the
new render.  A join keyed by the parent-child pair would never re-bind a
link element across different pairs nor exit a still-rendered pair. -/
theorem claim_C7_counterexample :
    (load (.ok dataRoot3)).map Prod.fst = Except.ok exState3 ∧
    (((click exState3 [0]).2.2).updating.map
        (fun pr => (linkPair pr.1, linkPair pr.2))).get? 2 =
      some ((some 2, some 4), (some 3, some 5)) ∧
    ((click exState3 [0]).2.2).exiting.map linkPair = [(some 3, some 5)] ∧
    ((click exState3 [0]).1.renderedLinks.map linkPair) =
      [(some 1, some 2), (some 1, some 3), (some 3, some 5)] :=
  ⟨rfl, by decide, by decide, by decide⟩

theorem zip_get?_map_fst {α β : Type} (l1 : List α) (l2 : List β) (i : Nat)
    (h : i < l2.length) :
    ((l1.zip l2).get? i).map Prod.fst = l1.get? i := by
  induction l1 generalizing l2 i with
  | nil => simp
  | cons a l1 ih =>
    cases l2 with
    | nil => simp at h
    | cons b l2 =>
      cases i with
      | zero => simp
      | succ i =>
        simp only [List.zip_cons_cons, List.get?_cons_succ]
        exact ih l2 i (by simpa using h)

theorem zip_get?_map_snd {α β : Type} (l1 : List α) (l2 : List β) (i : Nat)
    (h : i < l1.length) :
    ((l1.zip l2).get? i).map Prod.snd = l2.get? i := by
  induction l1 generalizing l2 i with
  | nil => simp at h
  | cons a l1 ih =>
    cases l2 with
    | nil => simp
    | cons b l2 =>
      cases i with
      | zero => simp
      | succ i =>
        simp only [List.zip_cons_cons, List.get?_cons_succ]
        exact ih l2 i (by simpa using h)

/-- C7 (amended): connector lines go through the same enter/update/exit
three-selection reconciliation as nodes, but their data join is keyless and
therefore POSITIONAL: the element at index i is re-bound to the new link
datum at index i (regardless of which parent-child pair either joins),
surplus new data enter, and surplus old elements exit. -/
theorem claim_C7_links_joined_by_index (s : St) (pivot : List Nat) :
    ((update s pivot).2.2).updating =
        s.renderedLinks.zip ((update s pivot).1.renderedLinks) ∧
    ((update s pivot).2.2).entering =
        ((update s pivot).1.renderedLinks).drop s.renderedLinks.length ∧
    ((update s pivot).2.2).exiting =
        s.renderedLinks.drop ((update s pivot).1.renderedLinks).length ∧
    (∀ i, i < s.renderedLinks.length → i < ((update s pivot).1.renderedLinks).length →
      ((((update s pivot).2.2).updating.get? i).map Prod.fst =
          s.renderedLinks.get? i ∧
        (((update s pivot).2.2).updating.get? i).map Prod.snd =
          ((update s pivot).1.renderedLinks).get? i)) := by
  refine ⟨rfl, rfl, rfl, ?_⟩
  intro i h1 h2
  constructor
  · exact zip_get?_map_fst _ _ i h2
  · exact zip_get?_map_snd _ _ i h1

/-- A small concrete pre-state with two link elements already bound. -/
def dummyLink : LinkDatum := ⟨none, none, 0, none, none⟩

def exLinkState : St := ⟨hierarchy dataRoot2 0, 0, [], [dummyLink, dummyLink]⟩

/-- Witness for C7 (amended): in an update pass over the example hierarchy,
the second link element is re-bound positionally. -/
theorem claim_C7_links_joined_by_index_witness :
    (((update exLinkState []).2.2).updating.get? 1).map Prod.fst =
        exLinkState.renderedLinks.get? 1 ∧
      (((update exLinkState []).2.2).updating.get? 1).map Prod.snd =
        ((update exLinkState []).1.renderedLinks).get? 1 :=
  (claim_C7_links_joined_by_index exLinkState []).2.2.2 1 (by decide) (by decide)

/-! ### Enter/exit animation and node retention (C6) -/

mutual
/-- All ids present anywhere in the tree, hidden subtrees included. -/
def idsOf : Node → List Nat
  | .mk f c h =>
    (match f.id with
     | some i => [i]
     | none => []) ++ idsOfSlot c ++ idsOfSlot h

def idsOfSlot : Slot → List Nat
  | .arr cs => idsOfKids cs
  | _ => []

def idsOfKids : List Node → List Nat
  | [] => []
  | n :: rest => idsOf n ++ idsOfKids rest
end

mutual
theorem idsOf_layoutNode (n : Node) (r : Nat) :
    idsOf (layoutNode n r).1 = idsOf n := by
  cases n with
  | mk f c h =>
    cases c with
    | arr cs =>
      simp only [layoutNode, idsOf, idsOfSlot]
      rw [idsOfKids_layoutKids cs (r + 1)]
    | absent => simp [layoutNode, idsOf]
    | nullv => simp [layoutNode, idsOf]
    | undef => simp [layoutNode, idsOf]

theorem idsOfKids_layoutKids (ns : List Node) (r : Nat) :
    idsOfKids (layoutKids ns r).1 = idsOfKids ns := by
  cases ns with
  | nil => rfl
  | cons n rest =>
    simp only [layoutKids, idsOfKids]
    rw [idsOf_layoutNode n r, idsOfKids_layoutKids rest (layoutNode n r).2]
end

mutual
theorem idsOf_stashNode (n : Node) : idsOf (stashNode n) = idsOf n := by
  cases n with
  | mk f c h =>
    cases c with
    | arr cs =>
      simp only [stashNode, idsOf, idsOfSlot]
      rw [idsOfKids_stashKids cs]
    | absent => simp [stashNode, idsOf]
    | nullv => simp [stashNode, idsOf]
    | undef => simp [stashNode, idsOf]

theorem idsOfKids_stashKids (ns : List Node) :
    idsOfKids (stashKids ns) = idsOfKids ns := by
  cases ns with
  | nil => rfl
  | cons n rest =>
    simp only [stashKids, idsOfKids]
    rw [idsOf_stashNode n, idsOfKids_stashKids rest]
end

theorem idsOf_normalizeEntering (n : Node) :
    idsOf (normalizeEntering n) = idsOf n := by
  cases n with
  | mk f c h =>
    rw [normalizeEntering]
    by_cases hout : (f.data.childrenField.isSome &&
        (f.data.childrenField.getD []).length == 0) = true
    · rw [if_pos hout]
      by_cases hin : (!c.isPresent && !h.isPresent) = true
      · rw [if_pos hin]
        have hc : c = Slot.absent := by
          cases c <;> simp_all [Slot.isPresent]
        rw [hc]
        simp [idsOf, idsOfSlot]
      · rw [if_neg hin]
    · rw [if_neg hout]

mutual
theorem idsOf_normalizeTreeNode (n : Node) (rendered : List Nat) :
    idsOf (normalizeTreeNode n rendered) = idsOf n := by
  cases n with
  | mk f c h =>
    cases c with
    | arr cs =>
      simp only [normalizeTreeNode]
      split
      · rw [idsOf_normalizeEntering]
        simp only [idsOf, idsOfSlot]
        rw [idsOfKids_normalizeTreeKids cs rendered]
      · simp only [idsOf, idsOfSlot]
        rw [idsOfKids_normalizeTreeKids cs rendered]
    | absent =>
      simp only [normalizeTreeNode]
      split
      · rw [idsOf_normalizeEntering]
      · rfl
    | nullv =>
      simp only [normalizeTreeNode]
      split
      · rw [idsOf_normalizeEntering]
      · rfl
    | undef =>
      simp only [normalizeTreeNode]
      split
      · rw [idsOf_normalizeEntering]
      · rfl

theorem idsOfKids_normalizeTreeKids (ns : List Node) (rendered : List Nat) :
    idsOfKids (normalizeTreeKids ns rendered) = idsOfKids ns := by
  cases ns with
  | nil => rfl
  | cons n rest =>
    simp only [normalizeTreeKids, idsOfKids]
    rw [idsOf_normalizeTreeNode n rendered, idsOfKids_normalizeTreeKids rest rendered]
end

theorem idsOfKids_append (a b : List Node) :
    idsOfKids (a ++ b) = idsOfKids a ++ idsOfKids b := by
  induction a with
  | nil => rfl
  | cons n rest ih => simp [idsOfKids, ih]

/-- The ids a level's nodes carry themselves: own id and hidden subtree
(everything of the level except what lives under the truthy child
arrays). -/
def topIds : List Node → List Nat
  | [] => []
  | .mk f _ h :: rest =>
    (match f.id with
     | some i => [i]
     | none => []) ++ idsOfSlot h ++ topIds rest

/-- Every id of a forest is either carried by the top level itself or lives
in the gathered next level. -/
theorem idsOfKids_split (ns : List Node) (i : Nat) (h : i ∈ idsOfKids ns) :
    i ∈ topIds ns ∨ i ∈ idsOfKids (gatherKids ns) := by
  induction ns with
  | nil => cases h
  | cons n rest ih =>
    cases n with
    | mk f c h2 =>
      rw [idsOfKids, List.mem_append] at h
      simp only [topIds, gatherKids, Node.expKids, idsOfKids_append,
        List.mem_append]
      cases h with
      | inl h =>
        rw [idsOf, List.mem_append, List.mem_append] at h
        rcases h with (h | h) | h
        · exact Or.inl (Or.inl (Or.inl h))
        · cases c with
          | arr cs =>
            rw [idsOfSlot] at h
            exact Or.inr (Or.inl h)
          | absent => cases h
          | nullv => cases h
          | undef => cases h
        · exact Or.inl (Or.inl (Or.inr h))
      | inr h =>
        rcases ih h with h | h
        · exact Or.inl (Or.inr h)
        · exact Or.inr (Or.inr h)

theorem topIds_assignTop (ns : List Node) (k i : Nat) (h : i ∈ topIds ns) :
    i ∈ topIds (assignTop ns k).1 := by
  induction ns generalizing k with
  | nil => cases h
  | cons n rest ih =>
    cases n with
    | mk f c h2 =>
      rw [topIds, List.mem_append, List.mem_append] at h
      cases hfid : f.id with
      | some v =>
        rw [hfid] at h
        simp only [assignTop, hfid, topIds, List.mem_append]
        rcases h with (h | h) | h
        · exact Or.inl (Or.inl h)
        · exact Or.inl (Or.inr h)
        · exact Or.inr (ih k h)
      | none =>
        rw [hfid] at h
        simp only [assignTop, hfid, topIds, List.mem_append]
        rcases h with (h | h) | h
        · cases h
        · exact Or.inl (Or.inr h)
        · exact Or.inr (ih (k + 1) h)

theorem gatherKids_assignTop (ns : List Node) (k : Nat) :
    gatherKids (assignTop ns k).1 = gatherKids ns := by
  induction ns generalizing k with
  | nil => rfl
  | cons n rest ih =>
    cases n with
    | mk f c h2 =>
      cases hfid : f.id with
      | some v =>
        simp only [assignTop, hfid, gatherKids, Node.expKids]
        rw [ih k]
      | none =>
        simp only [assignTop, hfid, gatherKids, Node.expKids]
        rw [ih (k + 1)]

theorem assignTop_length (ns : List Node) (k : Nat) :
    (assignTop ns k).1.length = ns.length := by
  induction ns generalizing k with
  | nil => rfl
  | cons n rest ih =>
    cases n with
    | mk f c h2 =>
      cases hfid : f.id with
      | some v => simp [assignTop, hfid, ih k]
      | none => simp [assignTop, hfid, ih (k + 1)]

theorem reattach_length (ns pool : List Node) :
    (reattach ns pool).length = ns.length := by
  induction ns generalizing pool with
  | nil => rfl
  | cons n rest ih =>
    cases n with
    | mk f c h2 => cases c <;> simp [reattach, ih]

theorem bfsLevels_length (fuel : Nat) (ns : List Node) (k : Nat) :
    (bfsLevels fuel ns k).1.length = ns.length := by
  induction fuel generalizing ns k with
  | zero => rfl
  | succ fuel ih =>
    cases ns with
    | nil => rfl
    | cons n rest =>
      simp only [bfsLevels, reattach_length]
      rw [assignTop_length]

/-- Reattaching a pool of the right total size loses no id: what the level
itself carries and everything in the pool ends up in the rebuilt level. -/
theorem reattach_mem (ns : List Node) (pool : List Node) (i : Nat)
    (hlen : pool.length = (gatherKids ns).length)
    (h : i ∈ topIds ns ∨ i ∈ idsOfKids pool) :
    i ∈ idsOfKids (reattach ns pool) := by
  induction ns generalizing pool with
  | nil =>
    have hp : pool = [] :=
      List.eq_nil_of_length_eq_zero (by simpa [gatherKids] using hlen)
    subst hp
    rcases h with h | h
    · cases h
    · cases h
  | cons n rest ih =>
    cases n with
    | mk f c h2 =>
      cases c with
      | arr cs =>
        have hlen2 : (pool.drop cs.length).length = (gatherKids rest).length := by
          simp only [gatherKids, Node.expKids, List.length_append] at hlen
          simp [List.length_drop, hlen]
        have hsplit : pool = pool.take cs.length ++ pool.drop cs.length :=
          (List.take_append_drop cs.length pool).symm
        simp only [reattach, idsOfKids, idsOf, idsOfSlot, List.mem_append]
        rcases h with h | h
        · rw [topIds, List.mem_append, List.mem_append] at h
          rcases h with (h | h) | h
          · exact Or.inl (Or.inl (Or.inl h))
          · exact Or.inl (Or.inr h)
          · exact Or.inr (ih (pool.drop cs.length) hlen2 (Or.inl h))
        · rw [hsplit, idsOfKids_append, List.mem_append] at h
          rcases h with h | h
          · exact Or.inl (Or.inl (Or.inr h))
          · exact Or.inr (ih (pool.drop cs.length) hlen2 (Or.inr h))
      | absent =>
        have hlen2 : pool.length = (gatherKids rest).length := by
          simpa [gatherKids, Node.expKids] using hlen
        simp only [reattach, idsOfKids, idsOf, idsOfSlot, List.mem_append]
        rcases h with h | h
        · rw [topIds, List.mem_append, List.mem_append] at h
          rcases h with (h | h) | h
          · exact Or.inl (Or.inl (Or.inl h))
          · exact Or.inl (Or.inr h)
          · exact Or.inr (ih pool hlen2 (Or.inl h))
        · exact Or.inr (ih pool hlen2 (Or.inr h))
      | nullv =>
        have hlen2 : pool.length = (gatherKids rest).length := by
          simpa [gatherKids, Node.expKids] using hlen
        simp only [reattach, idsOfKids, idsOf, idsOfSlot, List.mem_append]
        rcases h with h | h
        · rw [topIds, List.mem_append, List.mem_append] at h
          rcases h with (h | h) | h
          · exact Or.inl (Or.inl (Or.inl h))
          · exact Or.inl (Or.inr h)
          · exact Or.inr (ih pool hlen2 (Or.inl h))
        · exact Or.inr (ih pool hlen2 (Or.inr h))
      | undef =>
        have hlen2 : pool.length = (gatherKids rest).length := by
          simpa [gatherKids, Node.expKids] using hlen
        simp only [reattach, idsOfKids, idsOf, idsOfSlot, List.mem_append]
        rcases h with h | h
        · rw [topIds, List.mem_append, List.mem_append] at h
          rcases h with (h | h) | h
          · exact Or.inl (Or.inl (Or.inl h))
          · exact Or.inl (Or.inr h)
          · exact Or.inr (ih pool hlen2 (Or.inl h))
        · exact Or.inr (ih pool hlen2 (Or.inr h))

theorem idsOfKids_bfsLevels (fuel : Nat) (ns : List Node) (k i : Nat)
    (h : i ∈ idsOfKids ns) : i ∈ idsOfKids (bfsLevels fuel ns k).1 := by
  induction fuel generalizing ns k with
  | zero => exact h
  | succ fuel ih =>
    cases ns with
    | nil => cases h
    | cons n rest =>
      simp only [bfsLevels]
      apply reattach_mem
      · rw [bfsLevels_length, gatherKids_assignTop]
      · rcases idsOfKids_split (n :: rest) i h with h | h
        · exact Or.inl (topIds_assignTop (n :: rest) k i h)
        · refine Or.inr (ih (gatherKids (assignTop (n :: rest) k).1) _ ?_)
          rw [gatherKids_assignTop]
          exact h

theorem idsOf_assignIds (t : Node) (k i : Nat) (h : i ∈ idsOf t) :
    i ∈ idsOf (assignIds t k).1 := by
  have h1 : i ∈ idsOfKids [t] := by
    rw [idsOfKids, idsOfKids, List.append_nil]
    exact h
  have h2 := idsOfKids_bfsLevels (visCount t + 1) [t] k i h1
  have hlen := bfsLevels_length (visCount t + 1) [t] k
  cases hres : (bfsLevels (visCount t + 1) [t] k).1 with
  | nil => rw [hres] at hlen; cases hlen
  | cons r rest =>
    rw [hres] at hlen h2
    have hrest : rest = [] := by
      simp only [List.length_cons, List.length_nil] at hlen
      exact List.eq_nil_of_length_eq_zero (by omega)
    subst hrest
    rw [idsOfKids, idsOfKids, List.append_nil] at h2
    show i ∈ idsOf ((bfsLevels (visCount t + 1) [t] k).1.headD t)
    rw [hres]
    exact h2

/-- C6: in a reconcile pass with pivot S, (1) every entering element is
created at S's previous position `(x0, y0)` with opacity 0 and driven to
its own new position with opacity 1, not removed; (2) every visible node
not previously rendered produces such an entering element; (3) every
exiting element is driven from its last drawn position to S's current
position `(x, y)` with opacity 0 and then removed from the render; (4)
every previously rendered element whose id is no longer among the visible
data exits; and (5) the update pass never discards a Node from the tree:
every id present in the tree before is still present after. -/
theorem claim_C6_enter_exit_animations (prev : List RElem) (vis : List Fields)
    (src : Fields) (s : St) (pivot : List Nat)
    (hids : ∀ f ∈ vis, f.id.isSome = true) :
    (∀ a ∈ (nodeRenderOps prev vis src).entering,
      a.startX = src.x0 ∧ a.startY = src.y0 ∧ a.startOpacity = 0 ∧
      a.endOpacity = 1 ∧ a.removed = false ∧
      (prev.map RElem.id).contains a.elemId = false ∧
      ∃ f ∈ vis, f.id = some a.elemId ∧ a.endX = f.x ∧ a.endY = f.y) ∧
    (∀ f ∈ vis, ∀ i, f.id = some i → (prev.map RElem.id).contains i = false →
      ∃ a ∈ (nodeRenderOps prev vis src).entering, a.elemId = i) ∧
    (∀ a ∈ (nodeRenderOps prev vis src).exiting,
      a.endX = src.x ∧ a.endY = src.y ∧ a.endOpacity = 0 ∧ a.removed = true ∧
      (vis.filterMap Fields.id).contains a.elemId = false ∧
      ∃ e ∈ prev, e.id = a.elemId ∧ a.startX = e.x ∧ a.startY = e.y) ∧
    (∀ e ∈ prev, (vis.filterMap Fields.id).contains e.id = false →
      ∃ a ∈ (nodeRenderOps prev vis src).exiting, a.elemId = e.id) ∧
    (∀ i, i ∈ idsOf s.tree → i ∈ idsOf ((update s pivot).1.tree)) := by
  refine ⟨?_, ?_, ?_, ?_, ?_⟩
  · intro a ha
    simp only [nodeRenderOps, List.mem_map, List.mem_filter] at ha
    obtain ⟨f, ⟨hfv, hpred⟩, hgf⟩ := ha
    have hsome := hids f hfv
    cases hfid : f.id with
    | none => rw [hfid] at hsome; cases hsome
    | some i0 =>
      rw [hfid] at hpred
      subst hgf
      refine ⟨rfl, rfl, rfl, rfl, rfl, ?_, ⟨f, hfv, ?_, rfl, rfl⟩⟩
      · simp only [hfid, Option.getD_some]
        simpa using hpred
      · simp [hfid]
  · intro f hfv i hfi hcont
    refine ⟨{ elemId := f.id.getD 0
              startX := src.x0
              startY := src.y0
              startOpacity := 0
              endX := f.x
              endY := f.y
              endOpacity := 1
              removed := false }, ?_, ?_⟩
    · simp only [nodeRenderOps, List.mem_map]
      refine ⟨f, ?_, rfl⟩
      rw [List.mem_filter]
      refine ⟨hfv, ?_⟩
      rw [hfi]
      simpa using hcont
    · rw [hfi]
      rfl
  · intro a ha
    simp only [nodeRenderOps, List.mem_map, List.mem_filter] at ha
    obtain ⟨e, ⟨hep, hpred⟩, hge⟩ := ha
    subst hge
    exact ⟨rfl, rfl, rfl, rfl, by simpa using hpred, ⟨e, hep, rfl, rfl, rfl⟩⟩
  · intro e hep hcont
    refine ⟨{ elemId := e.id
              startX := e.x
              startY := e.y
              startOpacity := 1
              endX := src.x
              endY := src.y
              endOpacity := 0
              removed := true }, ?_, rfl⟩
    simp only [nodeRenderOps, List.mem_map]
    refine ⟨e, ?_, rfl⟩
    rw [List.mem_filter]
    exact ⟨hep, by simpa using hcont⟩
  · intro i hi
    have e : (update s pivot).1.tree =
        stashNode (normalizeTreeNode (assignIds (layout s.tree) s.nextId).1
          (s.rendered.map RElem.id)) := rfl
    rw [e, idsOf_stashNode, idsOf_normalizeTreeNode]
    apply idsOf_assignIds
    rw [layout, idsOf_layoutNode]
    exact hi

/-- The example tree after layout and id assignment, its visible fields,
and a state carrying it, used to witness C6 at concrete inputs. -/
def wT : Node := (assignIds (layout (hierarchy dataRoot 0)) 0).1

def wVis : List Fields := visFields wT

def wSt : St := ⟨wT, 4, [], []⟩

/-- Witness for C6: with nothing rendered yet, the root (id 1) produces an
entering element, and id 1 survives an update pass in the tree. -/
theorem claim_C6_enter_exit_animations_witness :
    (∃ a ∈ (nodeRenderOps [] wVis wT.fields).entering, a.elemId = 1) ∧
    1 ∈ idsOf ((update wSt []).1.tree) :=
  ⟨(claim_C6_enter_exit_animations [] wVis wT.fields wSt [] (by decide)).2.1
      (wVis.get ⟨0, by decide⟩) (List.get_mem wVis 0 (by decide)) 1
      (by decide) (by decide),
   (claim_C6_enter_exit_animations [] wVis wT.fields wSt [] (by decide)).2.2.2.2
      1 (by decide)⟩

/-! ### load (C8) -/

/-- The payload-carrying part of a node's fields: raw data, display name,
depth. -/
def payloadView (f : Fields) : Data × String × Nat :=
  (f.data, f.name, f.depth)

theorem payloadView_layoutNode (n : Node) (r : Nat) :
    payloadView (layoutNode n r).1.fields = payloadView n.fields := by
  rw [layoutNode_fields]
  rfl

theorem normalizeEntering_fields (n : Node) :
    (normalizeEntering n).fields = n.fields := by
  cases n with
  | mk f c h =>
    rw [normalizeEntering]
    by_cases hout : (f.data.childrenField.isSome &&
        (f.data.childrenField.getD []).length == 0) = true
    · rw [if_pos hout]
      by_cases hin : (!c.isPresent && !h.isPresent) = true
      · rw [if_pos hin]
        rfl
      · rw [if_neg hin]
    · rw [if_neg hout]

theorem normalizeTreeNode_fields (n : Node) (rendered : List Nat) :
    (normalizeTreeNode n rendered).fields = n.fields := by
  cases n with
  | mk f c h =>
    cases c <;>
      (simp only [normalizeTreeNode]
       split
       · exact (normalizeEntering_fields _).trans rfl
       · rfl)

theorem stashNode_fields (n : Node) :
    (stashNode n).fields =
      { n.fields with x0 := n.fields.x, y0 := n.fields.y } := by
  cases n with
  | mk f c h => cases c <;> rfl

theorem assignIds_fields_payload (n : Node) (k : Nat) :
    payloadView (assignIds n k).1.fields = payloadView n.fields ∧
    (assignIds n k).1.fields.x0 = n.fields.x0 ∧
    (assignIds n k).1.fields.y0 = n.fields.y0 := by
  cases n with
  | mk f c h =>
    cases hfid : f.id with
    | some v =>
      cases c <;>
        simp [assignIds, bfsLevels, assignTop, reattach, gatherKids, hfid,
          Node.fields, payloadView]
    | none =>
      cases c <;>
        simp [assignIds, bfsLevels, assignTop, reattach, gatherKids, hfid,
          Node.fields, payloadView]

theorem layoutNode_x0 (n : Node) (r : Nat) :
    (layoutNode n r).1.fields.x0 = n.fields.x0 ∧
    (layoutNode n r).1.fields.y0 = n.fields.y0 := by
  rw [layoutNode_fields]
  exact ⟨rfl, rfl⟩

/-- The root node as `load` prepares it: the hierarchy of the fetched data
with the previous position initialized to the origin
(`root.x0 = 0; root.y0 = 0`). -/
def rootAtOrigin (d : Data) : Node :=
  match hierarchy d 0 with
  | .mk f c h => .mk { f with x0 := some 0, y0 := some 0 } c h

/-- The successful result of `load`: the first `update` pass with the root
as pivot, on a state with nothing rendered yet. -/
def load0 (d : Data) : St × NodeOps × LinkOps :=
  update ⟨rootAtOrigin d, 0, [], []⟩ []

theorem hierarchy_fields (d : Data) (dep : Nat) :
    (hierarchy d dep).fields = ⟨none, d.name, dep, d, none, none, none, none, none⟩ := by
  cases d with
  | mk nm kids => rfl

theorem rootAtOrigin_fields (d : Data) :
    (rootAtOrigin d).fields =
      ⟨none, d.name, 0, d, none, none, none, some 0, some 0⟩ := by
  cases hh : hierarchy d 0 with
  | mk f c h =>
    have hf : f = (hierarchy d 0).fields := by rw [hh]; rfl
    simp only [rootAtOrigin, hh, Node.fields]
    rw [hf, hierarchy_fields]

/-- With the root as pivot, the node reconcile step of `update` uses the
(id-assigned, laid out) root's own fields as the animation anchor. -/
theorem update_root_nodeOps (s : St) :
    (update s []).2.1 =
      nodeRenderOps s.rendered
        (visFields (assignIds (layout s.tree) s.nextId).1)
        ((assignIds (layout s.tree) s.nextId).1).fields := rfl

/-- C8: `load` propagates a data-loading error unchanged (nothing is
rendered, no retry); on success it builds the hierarchy from the data (the
loaded tree's root carries the input payload at depth 0), initializes the
root's previous position to the origin, and runs the first layout/reconcile
pass with the root as pivot: every entering node element of that first pass
starts at the origin with opacity 0 and is driven to full opacity, nothing
updates or exits (there was no previous render), and no link element
updates or exits. -/
theorem claim_C8_load_error_propagation_and_first_pass (e : String) (d : Data) :
    load (.error e) = .error e ∧
    load (.ok d) = .ok (load0 d) ∧
    payloadView (load0 d).1.tree.fields = (d, d.name, 0) ∧
    (∀ a ∈ (load0 d).2.1.entering,
      a.startX = some 0 ∧ a.startY = some 0 ∧ a.startOpacity = 0 ∧
      a.endOpacity = 1) ∧
    (load0 d).2.1.updating = [] ∧
    (load0 d).2.1.exiting = [] ∧
    (load0 d).2.2.updating = [] ∧
    (load0 d).2.2.exiting = [] := by
  refine ⟨rfl, ?_, ?_, ?_, ?_, rfl, rfl, ?_⟩
  · cases d with
    | mk nm kids => rfl
  · calc payloadView (load0 d).1.tree.fields
        = payloadView (stashNode (normalizeTreeNode
            (assignIds (layout (rootAtOrigin d)) 0).1 [])).fields := rfl
      _ = payloadView (normalizeTreeNode
            (assignIds (layout (rootAtOrigin d)) 0).1 []).fields := by
          rw [stashNode_fields]
          rfl
      _ = payloadView (assignIds (layout (rootAtOrigin d)) 0).1.fields := by
          rw [normalizeTreeNode_fields]
      _ = payloadView (layout (rootAtOrigin d)).fields :=
          (assignIds_fields_payload _ 0).1
      _ = payloadView (rootAtOrigin d).fields := by
          rw [layout]
          exact payloadView_layoutNode _ 0
      _ = (d, d.name, 0) := by
          rw [rootAtOrigin_fields]
          rfl
  · intro a ha
    have ha2 : a ∈ (nodeRenderOps []
        (visFields (assignIds (layout (rootAtOrigin d)) 0).1)
        ((assignIds (layout (rootAtOrigin d)) 0).1).fields).entering := ha
    simp only [nodeRenderOps, List.mem_map, List.mem_filter] at ha2
    obtain ⟨g, ⟨hgv, hpred⟩, hga⟩ := ha2
    subst hga
    have hx : (assignIds (layout (rootAtOrigin d)) 0).1.fields.x0 = some 0 := by
      rw [(assignIds_fields_payload _ 0).2.1, layout,
        (layoutNode_x0 _ 0).1, rootAtOrigin_fields]
    have hy : (assignIds (layout (rootAtOrigin d)) 0).1.fields.y0 = some 0 := by
      rw [(assignIds_fields_payload _ 0).2.2, layout,
        (layoutNode_x0 _ 0).2, rootAtOrigin_fields]
    exact ⟨hx, hy, rfl, rfl⟩
  · show ((visFields (assignIds (layout (rootAtOrigin d)) 0).1).filter _).map _ = []
    rw [List.filter_eq_nil_iff.mpr ?_]
    · rfl
    · intro g hg
      cases hfid : g.id <;> simp [hfid]
  · show ([] : List LinkDatum).drop _ = []
    exact List.drop_nil

/-- Witness for C8: a concrete error is propagated unchanged, and the first
entering element of the first pass over the example data starts at the
origin, invisible, and is driven to full opacity. -/
theorem claim_C8_load_error_propagation_and_first_pass_witness :
    load (.error "fetch failed") = .error "fetch failed" ∧
    (((load0 dataRoot).2.1.entering.get ⟨0, by decide⟩).startX = some 0 ∧
      ((load0 dataRoot).2.1.entering.get ⟨0, by decide⟩).startY = some 0 ∧
      ((load0 dataRoot).2.1.entering.get ⟨0, by decide⟩).startOpacity = 0 ∧
      ((load0 dataRoot).2.1.entering.get ⟨0, by decide⟩).endOpacity = 1) :=
  ⟨(claim_C8_load_error_propagation_and_first_pass "fetch failed" dataRoot).1,
   (claim_C8_load_error_propagation_and_first_pass "fetch failed" dataRoot).2.2.2.1
      ((load0 dataRoot).2.1.entering.get ⟨0, by decide⟩)
      (List.get_mem (load0 dataRoot).2.1.entering 0 (by decide))⟩

end FolderTree
